import Mathlib

/-!
# gobwas/trie: a compressed-trie multi-pattern scanner

A shallow embedding of `trie.go`, followed by theorems that settle the
statements made about it.

Conventions of the embedding.

* A Go `string` is the list of its bytes (`List Byte`).
* A Go `int` is an `Int`; every value that occurs is bounded by the length of a
  string, so the 64-bit wrap-around of `int` never comes into play.
* A Go `uint64` is a `Nat` below `2 ^ 64`.
* A `*branch` tree is a value of the inductive type `Branch`; an update through
  a pointer is the replacement of the node in its parent.  Insertion never
  makes two parents share a node, so nothing is lost.
* `map[int][]*branch` is an association list with distinct keys.  The only
  `range` over the map (in `finalize`) feeds a sort, so the order of the
  entries is not observable.
* A run-time panic is an `Except.error`; see `Err`.
* The 8-byte load of `bits64` is modelled twice: `bits64` stops with
  `Err.readPastEnd` where the bytes it keeps are not all bytes of the string,
  and `bits64Mem` takes the bytes that follow the string in memory as a
  parameter.  `scanMem_eq_scan` relates the two scans built on them.
-/

namespace GoTrie

/-- One byte of a Go string. -/
abbrev Byte := Fin 256

/-- The bytes of an ASCII string literal (one byte per character). -/
def str (s : String) : List Byte := s.toList.map fun c => Fin.ofNat c.toNat

/-- The ways in which a run of the program can stop without a result. -/
inductive Err where
  /-- Go panic: index out of range (`s[i]`, `bits[i]`). -/
  | indexOutOfRange
  /-- Go panic: slice bounds out of range (`s[lo:hi]`). -/
  | sliceOutOfRange
  /-- The explicit `panic("trie fatal error")` of `Trie.Match`. -/
  | fatal
  /-- The outcome would depend on the memory that follows a string: `bits64`
  loads eight bytes whatever the length of its argument, Go does not trap this,
  and the bytes past the end are whatever lies there.  The model stops instead
  of inventing those bytes. -/
  | readPastEnd
  /-- The step budget of a loop of the model is used up.  It is an artefact of
  the embedding and is shown not to happen where it matters. -/
  | outOfFuel
  deriving DecidableEq, Repr

deriving instance DecidableEq for Except

/-- The result of a run: a value or the reason why there is none. -/
abbrev Run := Except Err

/-- The builtin `len(s)`. -/
def len (s : List Byte) : Int := (s.length : Int)

/-- The index expression `s[i]`. -/
def index (s : List Byte) (i : Int) : Run Byte :=
  if 0 ≤ i then
    match s[i.toNat]? with
    | some b => pure b
    | none => throw Err.indexOutOfRange
  else throw Err.indexOutOfRange

/-- The slice expression `s[lo:]`. -/
def sliceFrom (s : List Byte) (lo : Int) : Run (List Byte) :=
  if 0 ≤ lo ∧ lo ≤ len s then pure (s.drop lo.toNat) else throw Err.sliceOutOfRange

/-- The slice expression `s[:hi]`. -/
def sliceTo (s : List Byte) (hi : Int) : Run (List Byte) :=
  if 0 ≤ hi ∧ hi ≤ len s then pure (s.take hi.toNat) else throw Err.sliceOutOfRange

/-- The slice expression `s[lo:hi]`. -/
def slice (s : List Byte) (lo hi : Int) : Run (List Byte) :=
  if 0 ≤ lo ∧ lo ≤ hi ∧ hi ≤ len s then pure ((s.drop lo.toNat).take (hi - lo).toNat)
  else throw Err.sliceOutOfRange

/-! ## The branch node -/

/-- The struct `branch`: `val`, `sub`, `offsets`, `offset`, `offsetv`. -/
inductive Branch where
  | mk (val : List Byte) (sub : List (Int × List Branch)) (offsets : List Int)
      (offset : Int) (offsetv : Nat)

namespace Branch

/-- Field `val`. -/
def val : Branch → List Byte
  | mk v _ _ _ _ => v

/-- Field `sub`. -/
def sub : Branch → List (Int × List Branch)
  | mk _ m _ _ _ => m

/-- Field `offsets`. -/
def offsets : Branch → List Int
  | mk _ _ o _ _ => o

/-- Field `offset`. -/
def offset : Branch → Int
  | mk _ _ _ o _ => o

/-- Field `offsetv`. -/
def offsetv : Branch → Nat
  | mk _ _ _ _ w => w

end Branch

/-- The map read `m[k]`: the list stored under `k`, `nil` when the key is absent. -/
def mapGet {α : Type} : List (Int × List α) → Int → List α
  | [], _ => []
  | (k, l) :: rest, key => if k = key then l else mapGet rest key

/-- The map write `m[k] = l`. -/
def mapSet {α : Type} : List (Int × List α) → Int → List α → List (Int × List α)
  | [], key, l => [(key, l)]
  | (k, l0) :: rest, key, l => if k = key then (k, l) :: rest else (k, l0) :: mapSet rest key l

/-- The indexed store `l[j] = x`. -/
def setAt {α : Type} (l : List α) (j : Nat) (x : α) : Run (List α) :=
  if j < l.length then pure (l.set j x) else throw Err.indexOutOfRange

/-- The constructor `newBranch`. -/
def newBranch (p : List Byte) : Branch := Branch.mk p [] [] (len p) 0

/-! ## The chunk comparator -/

/-- The complement `^x` of a `uint64`. -/
def not64 (x : Nat) : Nat := 2 ^ 64 - 1 - x % 2 ^ 64

/-- The table `bits` as `init` leaves it; the array has the entries `0..7`. -/
def bits : Nat → Nat
  | 0 => not64 0
  | i + 1 => not64 ((0xff <<< (8 * (8 - (i + 1)))) % 2 ^ 64) &&& bits i

/-- The value of a byte sequence read as a little-endian number. -/
def leWord : List Byte → Nat
  | [] => 0
  | b :: bs => b.val + 256 * leWord bs

/-- The function `bits64`.  The load `*(*uint64)(unsafe.Pointer(ah.Data))` takes
eight bytes at the start of `a` whatever the length of `a` (read little-endian,
as on the machines the masks of `bits` are written for); for `n < 8` the mask
`bits[8-n]` keeps the low `n` bytes.  The bytes that survive are bytes of `a`
exactly when `min n 8 ≤ len a`; otherwise the run stops with `readPastEnd`. -/
def bits64 (a : List Byte) (n : Int) : Run Nat :=
  let av := leWord (a.take 8)
  if n < 8 then
    if 0 ≤ 8 - n ∧ 8 - n < 8 then
      if n ≤ len a then pure (av &&& bits (8 - n).toNat) else throw Err.readPastEnd
    else throw Err.indexOutOfRange
  else if 8 ≤ len a then pure av else throw Err.readPastEnd

/-- The test `w == bits64(s, n)`.  When `bits64 s n` is determined by `s` this is
the comparison of two numbers.  Otherwise `s` has fewer than eight bytes, the
low `len s` bytes of the loaded word are those of `s` and the next ones are not
bytes of `s`: the test is false when `w` and `s` disagree on those low bytes
already, and its outcome is not determined by `s` when they agree. -/
def eqBits64 (w : Nat) (s : List Byte) (n : Int) : Run Bool :=
  match bits64 s n with
  | Except.ok v => pure (w == v)
  | Except.error Err.readPastEnd =>
    if w % 256 ^ s.length = leWord s then throw Err.readPastEnd else pure false
  | Except.error e => throw e

/-- The function `match64`. -/
def match64 (a b : List Byte) (n : Int) : Run Bool := do
  let x ← bits64 a n
  let y ← bits64 b n
  pure (x == y)

/-! ## Node operations -/

/-- The loop of `hasPrefix`: `for i = 0; i < n; i++ { if b.val[i] != s[i] { break } }`.
Both indices are in range because `i < n ≤ min (len val) (len s)`. -/
def hasPrefixLoop (val s : List Byte) (n : Nat) : Nat → Nat → Nat
  | 0, i => i
  | fuel + 1, i =>
    if i < n then
      if val[i]? ≠ s[i]? then i else hasPrefixLoop val s n fuel (i + 1)
    else i

/-- The method `hasPrefix`. -/
def Branch.hasPrefix (b : Branch) (s : List Byte) : Int :=
  let n := if s.length < b.val.length then s.length else b.val.length
  (hasPrefixLoop b.val s n n 0 : Nat)

/-- The method `matchFirstN`. -/
def Branch.matchFirstN (b : Branch) (s : List Byte) (n : Int) : Run Bool :=
  if n = 1 then do
    let x ← index b.val 0
    let y ← index s 0
    pure (x == y)
  else if n ≤ 8 then eqBits64 b.offsetv s n
  else do
    let pre ← sliceTo b.val n
    pure (pre.isPrefixOf s)

/-- The method `couldMatch`. -/
def Branch.couldMatch (b : Branch) (s : List Byte) : Run Bool :=
  let n := b.offset
  let n := if n > 8 then 8 else n
  b.matchFirstN s n

/-- The loop of `matchPrefix` over the remaining `offsets`, with the current
value of `eq`, followed by the test on the whole value. -/
def Branch.matchPrefixFrom (b : Branch) (s : List Byte) : List Int → Int → Run Int
  | [], eq => do
    let r ← b.matchFirstN s (len b.val)
    pure (if r then len b.val else eq)
  | offset :: rest, eq => do
    let r ← b.matchFirstN s offset
    if !r then pure eq else Branch.matchPrefixFrom b s rest offset

/-- The method `matchPrefix`. -/
def Branch.matchPrefix (b : Branch) (s : List Byte) : Run Int :=
  b.matchPrefixFrom s b.offsets (-1)

/-! ## Insertion -/

/-- The first loop of `append`: after the children `l` (numbered from `j`) the
state `(max, maxb, maxj)` holds the child with the longest non-zero common
prefix with `p`, the first one among equals. -/
def appendScan (p : List Byte) :
    List Branch → Nat → Int × Option Branch × Nat → Int × Option Branch × Nat
  | [], _, st => st
  | br :: rest, j, (max, maxb, maxj) =>
    let n := br.hasPrefix p
    if n ≠ 0 ∧ n > max then appendScan p rest (j + 1) (n, some br, j)
    else appendScan p rest (j + 1) (max, maxb, maxj)

/-- The method `append`.  The first argument bounds the depth of the recursion;
`len p + 1` is enough since every recursive call drops at least one byte of `p`. -/
def Branch.append : Nat → Branch → Int → List Byte → Run Branch
  | 0, _, _, _ => throw Err.outOfFuel
  | fuel + 1, Branch.mk val sub offsets boffset offsetv, offset, p =>
    match appendScan p (mapGet sub offset) 0 (0, none, 0) with
    | (_, none, _) =>
      pure (Branch.mk val (mapSet sub offset (mapGet sub offset ++ [newBranch p])) offsets
        (if boffset > offset then offset else boffset) offsetv)
    | (max, some maxb, maxj) =>
      if len maxb.val < len p then do
        let rest ← sliceFrom maxb.val max
        let cut := Branch.mk rest maxb.sub maxb.offsets (len rest) maxb.offsetv
        let nb := Branch.mk p [(max, [cut])] [] max 0
        let l ← setAt (mapGet sub offset) maxj nb
        pure (Branch.mk val (mapSet sub offset l) offsets boffset offsetv)
      else do
        let rest ← sliceFrom p max
        let grown ← Branch.append fuel maxb max rest
        pure (Branch.mk val (mapSet sub offset ((mapGet sub offset).set maxj grown)) offsets
          boffset offsetv)

/-! ## Finalize -/

mutual
/-- The method `finalize`. -/
def Branch.finalize : Branch → Run Branch
  | Branch.mk val sub _ offset offsetv => do
    let sub1 ← finalizeSub sub
    let offsets := (sub.map Prod.fst).insertionSort (· ≤ ·)
    if val ≠ [] then
      let w ← bits64 val offset
      pure (Branch.mk val sub1 offsets offset w)
    else pure (Branch.mk val sub1 offsets offset offsetv)
/-- The `range` of `finalize` over the map. -/
def finalizeSub : List (Int × List Branch) → Run (List (Int × List Branch))
  | [] => pure []
  | (n, sb) :: rest => do
    let sb1 ← finalizeList sb
    let rest1 ← finalizeSub rest
    pure ((n, sb1) :: rest1)
/-- The `range` of `finalize` over one list of children. -/
def finalizeList : List Branch → Run (List Branch)
  | [] => pure []
  | b :: rest => do
    let b1 ← Branch.finalize b
    let rest1 ← finalizeList rest
    pure (b1 :: rest1)
end

/-! ## Scanning -/

mutual
/-- The method `match`. -/
def Branch.match : Branch → Int → List Byte → Run (Int × Bool)
  | Branch.mk _ sub _ _ _, offset, s =>
    if s = [] then pure (0, true) else matchSub sub offset s
/-- The read `b.sub[offset]` of `match`, followed by its loop. -/
def matchSub : List (Int × List Branch) → Int → List Byte → Run (Int × Bool)
  | [], _, _ => pure (-1, false)
  | (k, l) :: rest, offset, s =>
    if k = offset then matchLoop l offset s (-1) else matchSub rest offset s
/-- The loop of `match` over the remaining children, with the current `min`. -/
def matchLoop : List Branch → Int → List Byte → Int → Run (Int × Bool)
  | [], _, _, min => pure (min, false)
  | sb :: rest, offset, s, min =>
    if sb.val = [] then pure (offset, true)
    else do
      let could ← sb.couldMatch s
      if could then
        let m ← sb.matchPrefix s
        if m = len sb.val then pure (offset + m, true)
        else if m ≠ -1 then
          let tail ← sliceFrom s m
          let r ← Branch.match sb m tail
          if r.2 then pure (offset + r.1, true)
          else matchLoop rest offset s (if min = -1 ∨ sb.offset < min then sb.offset else min)
        else matchLoop rest offset s (if min = -1 ∨ sb.offset < min then sb.offset else min)
      else matchLoop rest offset s (if min = -1 ∨ sb.offset < min then sb.offset else min)
end

/-! ## The trie -/

/-- The struct `Trie`. -/
structure Trie where
  root : Branch

/-- The insertions of `New`: `for _, p := range patterns { t.root.append(0, p) }`. -/
def insertAll : Branch → List (List Byte) → Run Branch
  | root, [] => pure root
  | root, p :: rest => do
    let root1 ← root.append (p.length + 1) 0 p
    insertAll root1 rest

/-- The function `New`. -/
def New (patterns : List (List Byte)) : Run Trie := do
  let root ← insertAll (Branch.mk [] [] [] 0 0) patterns
  let root1 ← root.finalize
  pure ⟨root1⟩

/-- The loop of `Trie.Match` at cursor `pos`.  The first argument bounds the
number of iterations. -/
def Trie.matchFrom (t : Trie) (s : List Byte) : Nat → Int → Run (List Byte × Bool)
  | 0, _ => throw Err.outOfFuel
  | fuel + 1, pos =>
    if pos < len s - 1 then do
      let tail ← sliceFrom s pos
      let r ← t.root.match 0 tail
      if r.2 then do
        let m ← slice s pos (pos + r.1)
        pure (m, true)
      else if r.1 ≤ 0 then throw Err.fatal
      else Trie.matchFrom t s fuel (pos + r.1)
    else pure ([], false)

/-- The method `Trie.Match`. -/
def Trie.Match (t : Trie) (s : List Byte) : Run (List Byte × Bool) :=
  t.matchFrom s (s.length + 1) 0

/-- The composition `New(patterns...).Match(text)`. -/
def scan (patterns : List (List Byte)) (text : List Byte) : Run (List Byte × Bool) := do
  let t ← New patterns
  t.Match text

/-! ## Notions used to state the properties -/

/-- The pattern `p` occurs in the text `t` starting at index `i`. -/
def occursAt (p t : List Byte) (i : Nat) : Prop :=
  i ≤ t.length ∧ p.isPrefixOf (t.drop i) = true

instance (p t : List Byte) (i : Nat) : Decidable (occursAt p t i) := by
  unfold occursAt; infer_instance

/-- The pattern `p` occurs somewhere in the text `t`. -/
def occurs (p t : List Byte) : Prop := ∃ i ∈ List.range (t.length + 1), occursAt p t i

instance (p t : List Byte) : Decidable (occurs p t) := by
  unfold occurs; infer_instance

/-- `AllNodes P b`: the property `P` holds at `b` and at every node below it. -/
inductive AllNodes (P : Branch → Prop) : Branch → Prop where
  | node (b : Branch) (here : P b)
      (below : ∀ kl ∈ b.sub, ∀ c ∈ kl.2, AllNodes P c) : AllNodes P b

/-- The bound on the cached `offset` that `finalize` relies on. -/
def OffsetInRange (b : Branch) : Prop := b.val ≠ [] → 1 ≤ b.offset ∧ b.offset ≤ len b.val

/-- What the state of `appendScan` records about the children seen so far. -/
def ScanGood (p : List Byte) (seen : List Branch) (st : Int × Option Branch × Nat) : Prop :=
  0 ≤ st.1 ∧ ∀ b, st.2.1 = some b → seen[st.2.2]? = some b ∧ st.1 = b.hasPrefix p ∧ 1 ≤ st.1

/-- The descent that `Match` makes from the root at the cursor position `pos`:
`t.root.match(0, s[pos:])` on the trie built from `patterns`. -/
def rootDescent (patterns : List (List Byte)) (text : List Byte) (pos : Int) :
    Run (Int × Bool) := do
  let t ← New patterns
  let tail ← sliceFrom text pos
  t.root.match 0 tail

/-- The invariant stated for the cached `offset`: the smallest key of the child
map when the node has children, the length of the value when it has none. -/
def MinOffsetCached (b : Branch) : Prop :=
  match b.sub.map Prod.fst with
  | [] => b.offset = len b.val
  | k :: ks => b.offset = ks.foldl min k

/-! ### The calls of `matchFirstN` made by a scan

The functions below follow the control flow of `couldMatch`, `matchPrefix`,
`match` and `Match` and list, in order, the calls `matchFirstN(s, n)` that a run
makes, each as the pair of `n` and `len(s)`; the list stops where the run stops. -/

/-- One call `matchFirstN(s, n)`: the count `n` and the length of `s`. -/
structure Call where
  n : Int
  slen : Int
  deriving DecidableEq, Repr

/-- The call made by `couldMatch`. -/
def Branch.couldMatchCalls (b : Branch) (s : List Byte) : List Call :=
  [⟨if b.offset > 8 then 8 else b.offset, len s⟩]

/-- The calls made by the loop of `matchPrefix` and by its last test. -/
def Branch.matchPrefixCalls (b : Branch) (s : List Byte) : List Int → List Call
  | [] => [⟨len b.val, len s⟩]
  | offset :: rest =>
    ⟨offset, len s⟩ ::
      (match b.matchFirstN s offset with
        | Except.ok true => Branch.matchPrefixCalls b s rest
        | _ => [])

mutual
/-- The calls made by `match`. -/
def Branch.matchCalls : Branch → Int → List Byte → List Call
  | Branch.mk _ sub _ _ _, offset, s =>
    if s = [] then [] else matchSubCalls sub offset s
/-- The calls made by the loop of `match` over `b.sub[offset]`. -/
def matchSubCalls : List (Int × List Branch) → Int → List Byte → List Call
  | [], _, _ => []
  | (k, l) :: rest, offset, s =>
    if k = offset then matchLoopCalls l offset s else matchSubCalls rest offset s
/-- The calls made by the loop of `match` over the remaining children. -/
def matchLoopCalls : List Branch → Int → List Byte → List Call
  | [], _, _ => []
  | sb :: rest, offset, s =>
    if sb.val = [] then []
    else
      sb.couldMatchCalls s ++
        (match sb.couldMatch s with
          | Except.error _ => []
          | Except.ok false => matchLoopCalls rest offset s
          | Except.ok true =>
            sb.matchPrefixCalls s sb.offsets ++
              (match sb.matchPrefix s with
                | Except.error _ => []
                | Except.ok m =>
                  if m = len sb.val then []
                  else if m ≠ -1 then
                    (match sliceFrom s m with
                      | Except.error _ => []
                      | Except.ok tail =>
                        Branch.matchCalls sb m tail ++
                          (match Branch.match sb m tail with
                            | Except.error _ => []
                            | Except.ok r =>
                              if r.2 then [] else matchLoopCalls rest offset s))
                  else matchLoopCalls rest offset s))
end

/-- The calls made by the loop of `Trie.Match` from the cursor `pos`. -/
def Trie.matchFromCalls (t : Trie) (s : List Byte) : Nat → Int → List Call
  | 0, _ => []
  | fuel + 1, pos =>
    if pos < len s - 1 then
      match sliceFrom s pos with
      | Except.error _ => []
      | Except.ok tail =>
        t.root.matchCalls 0 tail ++
          (match t.root.match 0 tail with
            | Except.error _ => []
            | Except.ok r =>
              if r.2 then [] else if r.1 ≤ 0 then []
              else Trie.matchFromCalls t s fuel (pos + r.1))
    else []

/-- The calls `matchFirstN(s, n)` made on suffixes of the text during
`New(patterns...).Match(text)`. -/
def scanCalls (patterns : List (List Byte)) (text : List Byte) : List Call :=
  match New patterns with
  | Except.error _ => []
  | Except.ok t => t.matchFromCalls text (text.length + 1) 0

/-- Two strings have common-prefix length 0: one of them is empty or their first
bytes differ. -/
def NoSharedPrefix (u v : List Byte) : Prop := u = [] ∨ v = [] ∨ u[0]? ≠ v[0]?

/-- The keys of the child map of a node are distinct (it is a map). -/
def KeysDistinct (b : Branch) : Prop := (b.sub.map Prod.fst).Nodup

/-- In every child list of the node, any two children at different positions
have common-prefix length 0. -/
def SiblingsApart (b : Branch) : Prop :=
  ∀ kl ∈ b.sub, kl.2.Pairwise fun c d => NoSharedPrefix c.val d.val

/-- The shape of a node that insertion maintains: distinct keys, and siblings
without a common prefix. -/
def NodeShape (b : Branch) : Prop := KeysDistinct b ∧ SiblingsApart b

/-- Sibling disjointness as the statement has it: in every child list, two
children at different positions have common-prefix length 0, that is, one of
the two values is empty or their first bytes differ. -/
def SiblingsDisjoint (b : Branch) : Prop :=
  ∀ kl ∈ b.sub, ∀ (i j : Nat) (c d : Branch), i ≠ j → kl.2[i]? = some c → kl.2[j]? = some d →
    c.hasPrefix d.val = 0 ∧ (c.val = [] ∨ d.val = [] ∨ c.val[0]? ≠ d.val[0]?)

/-- An insertion step at the node, whatever the key and the pattern, has at most
one child with a non-zero shared prefix, and the scan of `append` selects it. -/
def OneCandidate (b : Branch) : Prop :=
  ∀ (offset : Int) (p : List Byte),
    (∀ (i j : Nat) (c d : Branch), (mapGet b.sub offset)[i]? = some c →
      (mapGet b.sub offset)[j]? = some d → c.hasPrefix p ≠ 0 → d.hasPrefix p ≠ 0 → i = j) ∧
    (∀ (i : Nat) (c : Branch), (mapGet b.sub offset)[i]? = some c → c.hasPrefix p ≠ 0 →
      appendScan p (mapGet b.sub offset) 0 (0, none, 0) = (c.hasPrefix p, some c, i))

/-- The postcondition of `finalize` at a node: the list `offsets` is strictly
increasing, its elements are exactly the keys of the child map, and for a
non-empty value `offsetv` is `bits64(val, offset)`. -/
def Finalized (b : Branch) : Prop :=
  b.offsets.Pairwise (· < ·) ∧ (∀ k, k ∈ b.offsets ↔ k ∈ b.sub.map Prod.fst) ∧
    (b.val ≠ [] → bits64 b.val b.offset = Except.ok b.offsetv)

/-- A run that does not stop with the fatal error of `Match` nor for lack of
steps of the model: if it stops, it is on a Go panic of an index or a slice, or
on a read past the end of a string. -/
def NoAbort {α : Type} (r : Run α) : Prop :=
  ∀ e, r = Except.error e → e ≠ Err.fatal ∧ e ≠ Err.outOfFuel

/-! ## The scan with the memory after the text

`bits64` loads eight bytes whatever the length of its argument, and the scan
calls it on suffixes of the text that may be shorter than the `n` bytes it
keeps.  What such a call returns depends on the bytes that follow the text in
memory.  The functions below are the scanner again, statement for statement,
with those bytes as a parameter `after` (`after 0` is the byte right after the
last byte of the text, and the load itself is taken not to fault): every load
is then a definite word, and no run is left open.

* A suffix `s[pos:]` or `s[m:]` of the text ends where the text ends, so the
  same `after` follows every string that the scan hands to `bits64`.
* `match` returns on `s == ""` before any load, so no load is made on an empty
  suffix.
* The trie is the one that `New` builds; the loads of `finalize` are made on
  node values and keep bytes of the value only (`finalize_postcondition`).
-/

/-- The eight bytes that `*(*uint64)(unsafe.Pointer(ah.Data))` loads at the start
of `a` when the bytes `after 0`, `after 1`, ... follow `a` in memory. -/
def load8 (a : List Byte) (after : Nat → Byte) : List Byte :=
  (a ++ (List.range 8).map after).take 8

/-- The function `bits64` on a string followed in memory by `after`. -/
def bits64Mem (a : List Byte) (after : Nat → Byte) (n : Int) : Run Nat :=
  let av := leWord (load8 a after)
  if n < 8 then
    if 0 ≤ 8 - n ∧ 8 - n < 8 then pure (av &&& bits (8 - n).toNat)
    else throw Err.indexOutOfRange
  else pure av

/-- The method `matchFirstN` on a text suffix followed in memory by `after`. -/
def Branch.matchFirstNMem (b : Branch) (s : List Byte) (after : Nat → Byte) (n : Int) :
    Run Bool :=
  if n = 1 then do
    let x ← index b.val 0
    let y ← index s 0
    pure (x == y)
  else if n ≤ 8 then do
    let w ← bits64Mem s after n
    pure (b.offsetv == w)
  else do
    let pre ← sliceTo b.val n
    pure (pre.isPrefixOf s)

/-- The method `couldMatch` on a text suffix followed in memory by `after`. -/
def Branch.couldMatchMem (b : Branch) (s : List Byte) (after : Nat → Byte) : Run Bool :=
  let n := b.offset
  let n := if n > 8 then 8 else n
  b.matchFirstNMem s after n

/-- The loop of `matchPrefix` and its last test, with `after`. -/
def Branch.matchPrefixFromMem (b : Branch) (s : List Byte) (after : Nat → Byte) :
    List Int → Int → Run Int
  | [], eq => do
    let r ← b.matchFirstNMem s after (len b.val)
    pure (if r then len b.val else eq)
  | offset :: rest, eq => do
    let r ← b.matchFirstNMem s after offset
    if !r then pure eq else Branch.matchPrefixFromMem b s after rest offset

/-- The method `matchPrefix` on a text suffix followed in memory by `after`. -/
def Branch.matchPrefixMem (b : Branch) (s : List Byte) (after : Nat → Byte) : Run Int :=
  b.matchPrefixFromMem s after b.offsets (-1)

mutual
/-- The method `match` on a text suffix followed in memory by `after`. -/
def Branch.matchMem : Branch → Int → List Byte → (Nat → Byte) → Run (Int × Bool)
  | Branch.mk _ sub _ _ _, offset, s, after =>
    if s = [] then pure (0, true) else matchSubMem sub offset s after
/-- The read `b.sub[offset]` of `match`, followed by its loop, with `after`. -/
def matchSubMem : List (Int × List Branch) → Int → List Byte → (Nat → Byte) →
    Run (Int × Bool)
  | [], _, _, _ => pure (-1, false)
  | (k, l) :: rest, offset, s, after =>
    if k = offset then matchLoopMem l offset s after (-1) else matchSubMem rest offset s after
/-- The loop of `match` over the remaining children, with `after`. -/
def matchLoopMem : List Branch → Int → List Byte → (Nat → Byte) → Int → Run (Int × Bool)
  | [], _, _, _, min => pure (min, false)
  | sb :: rest, offset, s, after, min =>
    if sb.val = [] then pure (offset, true)
    else do
      let could ← sb.couldMatchMem s after
      if could then
        let m ← sb.matchPrefixMem s after
        if m = len sb.val then pure (offset + m, true)
        else if m ≠ -1 then
          let tail ← sliceFrom s m
          let r ← Branch.matchMem sb m tail after
          if r.2 then pure (offset + r.1, true)
          else matchLoopMem rest offset s after (if min = -1 ∨ sb.offset < min then sb.offset else min)
        else matchLoopMem rest offset s after (if min = -1 ∨ sb.offset < min then sb.offset else min)
      else matchLoopMem rest offset s after (if min = -1 ∨ sb.offset < min then sb.offset else min)
end

/-- The loop of `Trie.Match` at cursor `pos` on a text followed in memory by
`after`.  The first argument bounds the number of iterations. -/
def Trie.matchFromMem (t : Trie) (s : List Byte) (after : Nat → Byte) :
    Nat → Int → Run (List Byte × Bool)
  | 0, _ => throw Err.outOfFuel
  | fuel + 1, pos =>
    if pos < len s - 1 then do
      let tail ← sliceFrom s pos
      let r ← t.root.matchMem 0 tail after
      if r.2 then do
        let m ← slice s pos (pos + r.1)
        pure (m, true)
      else if r.1 ≤ 0 then throw Err.fatal
      else Trie.matchFromMem t s after fuel (pos + r.1)
    else pure ([], false)

/-- The method `Trie.Match` on a text followed in memory by `after`. -/
def Trie.MatchMem (t : Trie) (s : List Byte) (after : Nat → Byte) : Run (List Byte × Bool) :=
  t.matchFromMem s after (s.length + 1) 0

/-- The composition `New(patterns...).Match(text)` on a text followed in memory
by `after`. -/
def scanMem (patterns : List (List Byte)) (text : List Byte) (after : Nat → Byte) :
    Run (List Byte × Bool) := do
  let t ← New patterns
  t.MatchMem text after

/-- The descent that `Match` makes from the root at the cursor position `pos`, on
a text followed in memory by `after`. -/
def rootDescentMem (patterns : List (List Byte)) (text : List Byte) (after : Nat → Byte)
    (pos : Int) : Run (Int × Bool) := do
  let t ← New patterns
  let tail ← sliceFrom text pos
  t.root.matchMem 0 tail after

/-- A run that, if it stops, stops on a Go panic of an index or of a slice
expression: not on the fatal error of `Match`, not for lack of steps of the
model, and not on a load whose outcome the model leaves open. -/
def BoundsOnly {α : Type} (r : Run α) : Prop :=
  ∀ e, r = Except.error e → e = Err.indexOutOfRange ∨ e = Err.sliceOutOfRange

/-- The run `r2`, made with the memory after the text given, agrees with the
run `r1` of the model that stops with `readPastEnd` where a load is not
determined by the text: unless `r1` stops there, `r2` is the same outcome. -/
def Agrees {α : Type} (r1 r2 : Run α) : Prop :=
  r1 ≠ Except.error Err.readPastEnd → r2 = r1

/-! ## Lemmas -/

@[simp] theorem Branch.val_mk (v : List Byte) (m : List (Int × List Branch)) (o : List Int)
    (f : Int) (w : Nat) : (Branch.mk v m o f w).val = v := rfl

@[simp] theorem Branch.sub_mk (v : List Byte) (m : List (Int × List Branch)) (o : List Int)
    (f : Int) (w : Nat) : (Branch.mk v m o f w).sub = m := rfl

@[simp] theorem Branch.offsets_mk (v : List Byte) (m : List (Int × List Branch)) (o : List Int)
    (f : Int) (w : Nat) : (Branch.mk v m o f w).offsets = o := rfl

@[simp] theorem Branch.offset_mk (v : List Byte) (m : List (Int × List Branch)) (o : List Int)
    (f : Int) (w : Nat) : (Branch.mk v m o f w).offset = f := rfl

@[simp] theorem Branch.offsetv_mk (v : List Byte) (m : List (Int × List Branch)) (o : List Int)
    (f : Int) (w : Nat) : (Branch.mk v m o f w).offsetv = w := rfl

theorem hasPrefixLoop_le (val s : List Byte) (n : Nat) :
    ∀ (fuel i : Nat), i ≤ n → hasPrefixLoop val s n fuel i ≤ n := by
  intro fuel
  induction fuel with
  | zero => intro i h; simpa [hasPrefixLoop] using h
  | succ k ih =>
    intro i h
    unfold hasPrefixLoop
    split_ifs with h1 h2
    · exact h
    · exact ih (i + 1) h1
    · exact h

theorem hasPrefix_nonneg (b : Branch) (s : List Byte) : 0 ≤ b.hasPrefix s := by
  unfold Branch.hasPrefix; exact Int.ofNat_nonneg _

theorem hasPrefix_le_val (b : Branch) (s : List Byte) : b.hasPrefix s ≤ len b.val := by
  simp only [Branch.hasPrefix, len]
  have h := hasPrefixLoop_le b.val s (if s.length < b.val.length then s.length else b.val.length)
    (if s.length < b.val.length then s.length else b.val.length) 0 (Nat.zero_le _)
  split_ifs at h ⊢ <;> omega

theorem hasPrefix_le_arg (b : Branch) (s : List Byte) : b.hasPrefix s ≤ len s := by
  simp only [Branch.hasPrefix, len]
  have h := hasPrefixLoop_le b.val s (if s.length < b.val.length then s.length else b.val.length)
    (if s.length < b.val.length then s.length else b.val.length) 0 (Nat.zero_le _)
  split_ifs at h ⊢ <;> omega

theorem appendScan_good (p : List Byte) :
    ∀ (l seen : List Branch) (j : Nat) (st : Int × Option Branch × Nat),
      seen.length = j → ScanGood p seen st → ScanGood p (seen ++ l) (appendScan p l j st) := by
  intro l
  induction l with
  | nil => intro seen j st _ h; simpa [appendScan] using h
  | cons br rest ih =>
    intro seen j st hj h
    obtain ⟨max, maxb, maxj⟩ := st
    have hsplit : seen ++ br :: rest = (seen ++ [br]) ++ rest := by simp
    rw [hsplit]
    unfold appendScan
    simp only
    split_ifs with hc
    · apply ih (seen ++ [br]) (j + 1) _ (by simp [hj])
      refine ⟨hasPrefix_nonneg _ _, ?_⟩
      intro b hb
      simp only [Option.some.injEq] at hb
      subst hb
      refine ⟨?_, rfl, ?_⟩
      · simp [← hj]
      · have := hasPrefix_nonneg br p
        omega
    · apply ih (seen ++ [br]) (j + 1) _ (by simp [hj])
      refine ⟨h.1, ?_⟩
      intro b hb
      obtain ⟨h1, h2, h3⟩ := h.2 b hb
      refine ⟨?_, h2, h3⟩
      simp only at h1 ⊢
      rw [List.getElem?_append_left]
      · exact h1
      · exact (List.getElem?_eq_some_iff.mp h1).1


theorem mem_mapGet {α : Type} (m : List (Int × List α)) (key : Int) (c : α)
    (h : c ∈ mapGet m key) : ∃ kl ∈ m, c ∈ kl.2 := by
  induction m with
  | nil => simp [mapGet] at h
  | cons e rest ih =>
    obtain ⟨k, l⟩ := e
    unfold mapGet at h
    split_ifs at h with hk
    · exact ⟨(k, l), by simp, h⟩
    · obtain ⟨kl, hkl, hc⟩ := ih h
      exact ⟨kl, by simp [hkl], hc⟩

theorem mem_mapSet {α : Type} (m : List (Int × List α)) (key : Int) (v : List α)
    (kl : Int × List α) (h : kl ∈ mapSet m key v) : kl ∈ m ∨ kl.2 = v := by
  induction m with
  | nil => simp [mapSet] at h; right; simp [h]
  | cons e rest ih =>
    obtain ⟨k, l⟩ := e
    unfold mapSet at h
    split_ifs at h with hk
    · rcases List.mem_cons.mp h with h1 | h1
      · right; simp [h1]
      · left; simp [h1]
    · rcases List.mem_cons.mp h with h1 | h1
      · left; simp [h1]
      · rcases ih h1 with h2 | h2
        · left; simp [h2]
        · right; exact h2

theorem AllNodes.here_of {P : Branch → Prop} {b : Branch} (h : AllNodes P b) : P b := by
  cases h with
  | node _ here _ => exact here

theorem AllNodes.below_of {P : Branch → Prop} {b : Branch} (h : AllNodes P b) :
    ∀ kl ∈ b.sub, ∀ c ∈ kl.2, AllNodes P c := by
  cases h with
  | node _ _ below => exact below

theorem AllNodes.of_mapGet {P : Branch → Prop} {b : Branch} (h : AllNodes P b) (key : Int)
    (c : Branch) (hc : c ∈ mapGet b.sub key) : AllNodes P c := by
  obtain ⟨kl, hkl, hmem⟩ := mem_mapGet b.sub key c hc
  exact h.below_of kl hkl c hmem

theorem allNodes_newBranch (p : List Byte) : AllNodes OffsetInRange (newBranch p) := by
  refine AllNodes.node _ ?_ ?_
  · intro hp
    simp only [newBranch, Branch.val_mk, Branch.offset_mk, len] at hp ⊢
    have : 0 < p.length := List.length_pos.mpr hp
    omega
  · intro kl hkl
    simp [newBranch, Branch.sub_mk] at hkl

/-- Insertion succeeds from a tree in which every cached offset is in range, at a
key that lies inside the value of the node (any key at the root, whose value is
empty), with a budget above the length of the pattern; the tree it returns has
the same value at the top and again every cached offset in range. -/
theorem append_ok : ∀ (fuel : Nat) (b : Branch) (offset : Int) (p : List Byte),
    p.length < fuel → AllNodes OffsetInRange b →
    (b.val = [] ∨ (1 ≤ offset ∧ offset ≤ len b.val)) →
    ∃ b1, b.append fuel offset p = Except.ok b1 ∧ b1.val = b.val ∧
      AllNodes OffsetInRange b1 := by
  intro fuel
  induction fuel with
  | zero => intro b offset p h; omega
  | succ fuel ih =>
    intro b offset p hfuel hall hkey
    obtain ⟨val, sub, offsets, boffset, offsetv⟩ := b
    have hgood := appendScan_good p (mapGet sub offset) [] 0 (0, none, 0) rfl
      ⟨le_refl _, by intro b hb; simp at hb⟩
    rcases hscan : appendScan p (mapGet sub offset) 0 (0, none, 0) with ⟨max, maxb, maxj⟩
    rw [hscan] at hgood
    simp only [List.nil_append] at hgood
    cases maxb with
    | none =>
      refine ⟨Branch.mk val (mapSet sub offset (mapGet sub offset ++ [newBranch p])) offsets
        (if boffset > offset then offset else boffset) offsetv, ?_, rfl, ?_⟩
      · simp only [Branch.append, hscan]; rfl
      · refine AllNodes.node _ ?_ ?_
        · intro hv
          have h0 := hall.here_of hv
          simp only [Branch.val_mk, Branch.offset_mk] at hv h0 hkey ⊢
          rcases hkey with hk | hk
          · exact absurd hk hv
          · split_ifs <;> omega
        · intro kl hkl c hc
          simp only [Branch.sub_mk] at hkl
          rcases mem_mapSet _ _ _ _ hkl with h1 | h1
          · exact hall.below_of kl h1 c hc
          · rw [h1] at hc
            rcases List.mem_append.mp hc with h2 | h2
            · exact hall.of_mapGet offset c h2
            · simp only [List.mem_singleton] at h2
              rw [h2]; exact allNodes_newBranch p
    | some mb =>
      obtain ⟨hmax0, hmb⟩ := hgood
      obtain ⟨hget, hmaxeq, hmax1⟩ := hmb mb rfl
      simp only at hget hmaxeq hmax1
      have hmem : mb ∈ mapGet sub offset := List.getElem?_mem hget
      have hlt : maxj < (mapGet sub offset).length := (List.getElem?_eq_some_iff.mp hget).1
      have hmball : AllNodes OffsetInRange mb := hall.of_mapGet offset mb hmem
      have hle1 : max ≤ len mb.val := hmaxeq ▸ hasPrefix_le_val mb p
      have hle2 : max ≤ len p := hmaxeq ▸ hasPrefix_le_arg mb p
      by_cases hlen : len mb.val < len p
      · -- the child is split
        refine ⟨Branch.mk val (mapSet sub offset ((mapGet sub offset).set maxj
            (Branch.mk p [(max, [Branch.mk (mb.val.drop max.toNat) mb.sub mb.offsets
              (len (mb.val.drop max.toNat)) mb.offsetv])] [] max 0))) offsets boffset offsetv,
          ?_, rfl, ?_⟩
        · simp only [Branch.append, hscan, hlen, if_true, sliceFrom, setAt, hlt]
          simp [hle1, (by omega : 0 ≤ max)]
          rfl
        · refine AllNodes.node _ (hall.here_of) ?_
          intro kl hkl c hc
          simp only [Branch.sub_mk] at hkl
          rcases mem_mapSet _ _ _ _ hkl with h1 | h1
          · exact hall.below_of kl h1 c hc
          · rw [h1] at hc
            rcases List.mem_or_eq_of_mem_set hc with h2 | h2
            · exact hall.of_mapGet offset c h2
            · subst h2
              refine AllNodes.node _ ?_ ?_
              · intro _
                simp only [Branch.val_mk, Branch.offset_mk]
                exact ⟨hmax1, hle2⟩
              · intro kl2 hkl2 c2 hc2
                simp only [Branch.sub_mk, List.mem_singleton] at hkl2
                subst hkl2
                simp only [List.mem_singleton] at hc2
                subst hc2
                refine AllNodes.node _ ?_ ?_
                · intro hv
                  simp only [Branch.val_mk, Branch.offset_mk, len] at hv ⊢
                  have : 0 < (List.drop max.toNat mb.val).length := List.length_pos.mpr hv
                  exact ⟨by omega, le_refl _⟩
                · intro kl3 hkl3 c3 hc3
                  simp only [Branch.sub_mk] at hkl3
                  exact hmball.below_of kl3 hkl3 c3 hc3
      · -- the pattern goes into the child
        have hrest : (p.drop max.toNat).length < fuel := by
          simp only [List.length_drop]
          simp only [len] at hle2
          omega
        obtain ⟨g, hg, hgval, hgall⟩ := ih mb max (p.drop max.toNat) hrest hmball
          (Or.inr ⟨hmax1, hle1⟩)
        refine ⟨Branch.mk val (mapSet sub offset ((mapGet sub offset).set maxj g)) offsets
          boffset offsetv, ?_, rfl, ?_⟩
        · simp only [Branch.append, hscan, hlen, if_false, sliceFrom]
          simp [hle2, (by omega : 0 ≤ max), hg]
        · refine AllNodes.node _ (hall.here_of) ?_
          intro kl hkl c hc
          simp only [Branch.sub_mk] at hkl
          rcases mem_mapSet _ _ _ _ hkl with h1 | h1
          · exact hall.below_of kl h1 c hc
          · rw [h1] at hc
            rcases List.mem_or_eq_of_mem_set hc with h2 | h2
            · exact hall.of_mapGet offset c h2
            · subst h2; exact hgall


theorem bits64_ok (a : List Byte) (n : Int) (h1 : 1 ≤ n) (h2 : n ≤ len a) :
    ∃ w, bits64 a n = Except.ok w := by
  unfold bits64
  by_cases h : n < 8
  · have h3 : 0 ≤ 8 - n ∧ 8 - n < 8 := by omega
    simp only [h, h3, h2, if_true, and_self]
    exact ⟨_, rfl⟩
  · have h3 : 8 ≤ len a := by omega
    simp only [h, h3, if_true, if_false]
    exact ⟨_, rfl⟩

theorem finalizeList_ok (l : List Branch)
    (h : ∀ c ∈ l, ∃ c1, c.finalize = Except.ok c1) : ∃ l1, finalizeList l = Except.ok l1 := by
  induction l with
  | nil => exact ⟨[], by simp [finalizeList]; rfl⟩
  | cons c rest ih =>
    obtain ⟨c1, hc1⟩ := h c (by simp)
    obtain ⟨r1, hr1⟩ := ih (fun d hd => h d (by simp [hd]))
    exact ⟨c1 :: r1, by simp [finalizeList, hc1, hr1]; rfl⟩

theorem finalizeSub_ok (m : List (Int × List Branch))
    (h : ∀ kl ∈ m, ∀ c ∈ kl.2, ∃ c1, c.finalize = Except.ok c1) :
    ∃ m1, finalizeSub m = Except.ok m1 := by
  induction m with
  | nil => exact ⟨[], by simp [finalizeSub]; rfl⟩
  | cons e rest ih =>
    obtain ⟨k, l⟩ := e
    obtain ⟨l1, hl1⟩ := finalizeList_ok l (h (k, l) (by simp))
    obtain ⟨r1, hr1⟩ := ih (fun kl hkl => h kl (by simp [hkl]))
    exact ⟨(k, l1) :: r1, by simp [finalizeSub, hl1, hr1]; rfl⟩

theorem finalize_ok (b : Branch) (h : AllNodes OffsetInRange b) :
    ∃ b1, b.finalize = Except.ok b1 := by
  induction h with
  | node b here _ ih =>
    obtain ⟨val, sub, offsets, offset, offsetv⟩ := b
    simp only [Branch.sub_mk] at ih
    obtain ⟨m1, hm1⟩ := finalizeSub_ok sub ih
    by_cases hv : val = []
    · exact ⟨_, by simp [Branch.finalize, hm1, hv]; rfl⟩
    · have hr := here (by simpa using hv)
      simp only [Branch.val_mk, Branch.offset_mk] at hr
      obtain ⟨w, hw⟩ := bits64_ok val offset hr.1 hr.2
      exact ⟨_, by simp [Branch.finalize, hm1, hv, hw]; rfl⟩

theorem insertAll_ok : ∀ (patterns : List (List Byte)) (root : Branch),
    root.val = [] → AllNodes OffsetInRange root →
    ∃ r, insertAll root patterns = Except.ok r ∧ r.val = [] ∧ AllNodes OffsetInRange r := by
  intro patterns
  induction patterns with
  | nil => intro root hv hall; exact ⟨root, rfl, hv, hall⟩
  | cons p rest ih =>
    intro root hv hall
    obtain ⟨r1, h1, hv1, hall1⟩ := append_ok (p.length + 1) root 0 p (Nat.lt_succ_self _) hall
      (Or.inl hv)
    obtain ⟨r, h2, hv2, hall2⟩ := ih r1 (hv1.trans hv) hall1
    exact ⟨r, by rw [insertAll, h1]; exact h2, hv2, hall2⟩


/-- The root that `New` starts from: `&branch{sub: make(map[int][]*branch)}`. -/
theorem allNodes_emptyRoot : AllNodes OffsetInRange (Branch.mk [] [] [] 0 0) :=
  AllNodes.node _ (fun h => absurd rfl h) (fun kl hkl => by simp at hkl)

/-! ## The statements about the scanner -/

/-- C1 (leftmost match) fails on the code.  The pattern `a` occurs in the text
`ba` at index 1 and nowhere before, yet the scan reports no match: the loop of
`Match` runs while `pos < len(s)-1`, so the last byte of a text is never tried as
the start of a match. -/
theorem leftmost_match_missed_at_last_byte :
    occursAt (str "a") (str "ba") 1 ∧ (∀ j, j < 1 → ¬ occursAt (str "a") (str "ba") j) ∧
      scan [str "a"] (str "ba") = Except.ok ([], false) := by
  decide

set_option maxRecDepth 100000 in
/-- C2 (no false positive) fails on the code.  Neither `abcdefghi` nor `abX`
occurs in the text `ab`, yet the scan answers found, with the empty string: the
descent reaches the end of the text inside the value `abcdefghi` and `match`
returns `(0, true)` for an empty remainder. -/
theorem false_positive_at_end_of_text :
    (∀ p ∈ [str "abcdefghi", str "abX"], ¬ occurs p (str "ab")) ∧
      scan [str "abcdefghi", str "abX"] (str "ab") = Except.ok ([], true) := by
  decide

set_option maxRecDepth 100000 in
/-- C3 (a reported match is a pattern) fails on the code.  With the patterns
`abc` and `abd` the text `ab\x00` is reported as a match in full, and it is
neither of the two patterns: the test on the whole value `abc` compares the
three bytes of the text with the word cached for two bytes. -/
theorem reported_match_is_no_pattern :
    scan [str "abc", str "abd"] (str "ab\x00") = Except.ok (str "ab\x00", true) ∧
      str "ab\x00" ∉ [str "abc", str "abd"] := by
  decide

set_option maxRecDepth 100000 in
/-- C4 (insertion-order independence) fails on the code.  The lists `abc, abd`
and `abd, abc` are permutations of each other; on the text `abcx` the first
order reports no match and the second reports `abc`. -/
theorem insertion_order_changes_found :
    List.Perm [str "abd", str "abc"] [str "abc", str "abd"] ∧
      scan [str "abc", str "abd"] (str "abcx") = Except.ok ([], false) ∧
      scan [str "abd", str "abc"] (str "abcx") = Except.ok (str "abc", true) := by
  refine ⟨List.Perm.swap _ _ _, ?_, ?_⟩ <;> decide

/-- C5 (an empty pattern set never matches and is not a failure) fails on the
code.  With no pattern the scan returns `("", false)` only for texts of at most
one byte; on every longer text the descent from the empty root returns the
advance `-1` and `Match` takes its `panic("trie fatal error")`. -/
theorem empty_pattern_set_scan (text : List Byte) :
    scan [] text =
      if text.length ≤ 1 then Except.ok ([], false) else Except.error Err.fatal := by
  have hnew : New [] = Except.ok ⟨Branch.mk [] [] [] 0 0⟩ := rfl
  have hscan : scan [] text = Trie.Match ⟨Branch.mk [] [] [] 0 0⟩ text := by
    unfold scan; rw [hnew]; rfl
  rw [hscan]
  unfold Trie.Match Trie.matchFrom
  by_cases h : text.length ≤ 1
  · have h1 : ¬ ((0 : Int) < len text - 1) := by simp only [len]; omega
    simp only [h1, h, if_false, if_true]; rfl
  · have h1 : (0 : Int) < len text - 1 := by simp only [len]; omega
    have h2 : text ≠ [] := by intro h3; simp [h3] at h
    have h3 : sliceFrom text 0 = Except.ok text := by
      simp [sliceFrom, len]
      rfl
    simp only [h1, h, if_true, if_false, h3]
    simp [Branch.match, matchSub, h2, bind, Except.bind, pure, Except.pure]
    rfl

/-- C6 (a single one-byte pattern is found at its first occurrence) fails on the
code.  With the pattern `a` alone, neither the one-byte text `a` nor the text
`za`, in which `a` is the last byte, is matched. -/
theorem single_byte_pattern_missed :
    occurs (str "a") (str "a") ∧ scan [str "a"] (str "a") = Except.ok ([], false) ∧
      occurs (str "a") (str "za") ∧ scan [str "a"] (str "za") = Except.ok ([], false) := by
  decide

set_option maxRecDepth 100000 in
/-- C7 (a strict prefix stays matchable) fails on the code.  The pattern `ab` is
a strict prefix of `abcdefghi`; in the text `ab` the first occurs and the second
does not, and in both insertion orders the scan answers found with the empty
string instead of `ab`. -/
theorem strict_prefix_reported_as_empty :
    occurs (str "ab") (str "ab") ∧ ¬ occurs (str "abcdefghi") (str "ab") ∧
      scan [str "ab", str "abcdefghi"] (str "ab") = Except.ok ([], true) ∧
      scan [str "abcdefghi", str "ab"] (str "ab") = Except.ok ([], true) := by
  decide

/-- C8. `New` completes on every list of patterns: no slice of an insertion and
no index of `finalize` is out of range, and the step budget of the model is
enough.  The tree that the insertions leave has, at every node with a non-empty
value, a cached offset between 1 and the length of the value, which is what
keeps the index `8 - offset` of the mask table inside `0..7` in `finalize`. -/
theorem New_never_fails (patterns : List (List Byte)) :
    ∃ root t, insertAll (Branch.mk [] [] [] 0 0) patterns = Except.ok root ∧
      AllNodes OffsetInRange root ∧ root.finalize = Except.ok t ∧
      New patterns = Except.ok ⟨t⟩ := by
  obtain ⟨root, h1, _, hall⟩ := insertAll_ok patterns (Branch.mk [] [] [] 0 0) rfl allNodes_emptyRoot
  obtain ⟨t, h2⟩ := finalize_ok root hall
  exact ⟨root, t, h1, hall, h2, by unfold New; rw [h1]; show (root.finalize >>= _) = _; rw [h2]; rfl⟩


set_option maxRecDepth 100000 in
/-- C9 (scanning never fails on overlapping patterns) fails on the code.  The
three non-empty patterns below build a node with value `cdefghijk` (nine bytes)
that keeps a child under the key 10; on the text `abcdefghijk` the scan reaches
`matchFirstN(s, 10)` on that node and the slice `b.val[:10]` is out of range. -/
theorem scan_slice_out_of_range :
    scan [str "abcdefghijk", str "abcdefghijl", str "abmmmmmmmmmm"] (str "abcdefghijk") =
      Except.error Err.sliceOutOfRange := by
  decide

set_option maxRecDepth 100000 in
/-- C10.  The reference scenario of the test suite: with the eight patterns
inserted in the order of the test, the text `ananafcardio` gives `("card", true)`
and the text `ananafcario` gives `("", false)`. -/
theorem reference_scenario :
    scan [str "ananas", str "and", str "banderole", str "banana", str "bandana", str "card",
        str "canary", str "carry"] (str "ananafcardio") = Except.ok (str "card", true) ∧
      scan [str "ananas", str "and", str "banderole", str "banana", str "bandana", str "card",
        str "canary", str "carry"] (str "ananafcario") = Except.ok ([], false) := by
  decide

/-! ## The tie at one start offset -/

/-- C11.  With the patterns `a` and `ab`, in either insertion order, the text
`ab` gives a match that starts at offset 0, and both orders return the same
string, `a`. -/
theorem tie_at_offset_zero :
    ∃ m, (m = str "a" ∨ m = str "ab") ∧ occursAt m (str "ab") 0 ∧
      scan [str "a", str "ab"] (str "ab") = Except.ok (m, true) ∧
      scan [str "ab", str "a"] (str "ab") = Except.ok (m, true) :=
  ⟨str "a", by decide, by decide, by decide, by decide⟩

/-! ## The chunk comparator -/

theorem bits_table : ∀ i, i < 8 → bits i = 2 ^ (8 * (8 - i)) - 1 := by
  decide

theorem leWord_lt (l : List Byte) : leWord l < 256 ^ l.length := by
  induction l with
  | nil => simp [leWord]
  | cons b bs ih =>
    simp only [leWord, List.length_cons, pow_succ]
    have := b.isLt
    omega

theorem leWord_mod (n : Nat) : ∀ l : List Byte, leWord l % 256 ^ n = leWord (l.take n) := by
  induction n with
  | zero => intro l; simp [leWord, Nat.mod_one]
  | succ n ih =>
    intro l
    cases l with
    | nil => simp [leWord]
    | cons b bs =>
      simp only [leWord, List.take_succ_cons, pow_succ]
      rw [Nat.mul_comm (256 ^ n) 256, Nat.mod_mul, ← ih bs]
      have := b.isLt
      have h1 : (b.val + 256 * leWord bs) % 256 = b.val := by omega
      have h2 : (b.val + 256 * leWord bs) / 256 = leWord bs := by omega
      rw [h1, h2]

theorem leWord_byte (i : Nat) : ∀ l : List Byte,
    leWord l / 256 ^ i % 256 = ((l[i]?).map Fin.val).getD 0 := by
  induction i with
  | zero =>
    intro l
    cases l with
    | nil => simp [leWord]
    | cons b bs => simp [leWord]
  | succ i ih =>
    intro l
    cases l with
    | nil => simp [leWord]
    | cons b bs =>
      simp only [leWord, pow_succ, List.getElem?_cons_succ]
      rw [← ih bs, Nat.mul_comm (256 ^ i) 256, ← Nat.div_div_eq_div_mul]
      have := b.isLt
      have h2 : (b.val + 256 * leWord bs) / 256 = leWord bs := by omega
      rw [h2]

theorem leWord_inj : ∀ l1 l2 : List Byte, l1.length = l2.length → leWord l1 = leWord l2 →
    l1 = l2 := by
  intro l1
  induction l1 with
  | nil => intro l2 hl _; cases l2 with
    | nil => rfl
    | cons _ _ => simp at hl
  | cons b bs ih =>
    intro l2 hl hw
    cases l2 with
    | nil => simp at hl
    | cons c cs =>
      simp only [leWord] at hw
      have hb := b.isLt
      have hc := c.isLt
      have h1 : b.val = c.val := by omega
      have h2 : leWord bs = leWord cs := by omega
      rw [ih cs (by simpa using hl) h2, Fin.ext h1]

/-- The word that `bits64` returns when the `n` bytes it keeps lie inside `a`. -/
theorem bits64_eq_leWord (a : List Byte) (n : Nat) (h1 : 1 ≤ n) (h8 : n ≤ 8)
    (ha : n ≤ a.length) : bits64 a n = Except.ok (leWord (a.take n)) := by
  unfold bits64
  by_cases h : (n : Int) < 8
  · have h3 : (0 : Int) ≤ 8 - n ∧ (8 : Int) - n < 8 := by omega
    have h4 : (n : Int) ≤ len a := by simp only [len]; omega
    have h5 : (8 - (n : Int)).toNat = 8 - n := by omega
    simp only [h, h3, h4, if_true, and_self, h5]
    rw [bits_table (8 - n) (by omega)]
    have h6 : 8 * (8 - (8 - n)) = 8 * n := by omega
    rw [h6, Nat.and_pow_two_sub_one_eq_mod, pow_mul]
    have h7 : (2 : Nat) ^ 8 = 256 := by norm_num
    rw [h7, leWord_mod, List.take_take]
    simp [show min n 8 = n by omega]
    rfl
  · have h3 : n = 8 := by omega
    have h4 : (8 : Int) ≤ len a := by simp only [len]; omega
    simp only [h, h4, if_true, if_false, h3]
    rfl

/-- C12.  The mask table is `bits[i] = 2^(8*(8-i)) - 1` for `i` in `0..7`.  For
`1 ≤ n ≤ 8` and a byte sequence `a` with at least `n` bytes, `bits64(a, n)` is
the word whose byte `i` (little-endian) is `a[i]` for `i < n` and zero for
`n ≤ i < 8`; and for two such sequences `match64(a, b, n)` is true exactly when
`a[:n] = b[:n]`. -/
theorem chunk_comparator (a b : List Byte) (n : Nat) (h1 : 1 ≤ n) (h8 : n ≤ 8)
    (ha : n ≤ a.length) (hb : n ≤ b.length) :
    (∀ i, i < 8 → bits i = 2 ^ (8 * (8 - i)) - 1) ∧
    (∃ w, bits64 a n = Except.ok w ∧ w < 2 ^ 64 ∧
      ∀ i, i < 8 → w / 256 ^ i % 256 = if i < n then ((a[i]?).map Fin.val).getD 0 else 0) ∧
    (∃ r, match64 a b n = Except.ok r ∧ (r = true ↔ a.take n = b.take n)) := by
  refine ⟨bits_table, ⟨leWord (a.take n), bits64_eq_leWord a n h1 h8 ha, ?_, ?_⟩, ?_⟩
  · have h := leWord_lt (a.take n)
    have hlen : (a.take n).length = n := by simp [ha]
    rw [hlen] at h
    calc leWord (a.take n) < 256 ^ n := h
      _ ≤ 256 ^ 8 := Nat.pow_le_pow_right (by norm_num) h8
      _ = 2 ^ 64 := by norm_num
  · intro i _
    rw [leWord_byte]
    by_cases hi : i < n
    · simp [hi, List.getElem?_take]
    · have : (a.take n)[i]? = none := by
        apply List.getElem?_eq_none
        simp; omega
      simp [hi, this]
  · refine ⟨leWord (a.take n) == leWord (b.take n), ?_, ?_⟩
    · unfold match64
      rw [bits64_eq_leWord a n h1 h8 ha, bits64_eq_leWord b n h1 h8 hb]
      rfl
    · constructor
      · intro h
        have h2 : leWord (a.take n) = leWord (b.take n) := by simpa using h
        exact leWord_inj _ _ (by simp [ha, hb]) h2
      · intro h
        simp [h]

/-- C12 at the first three bytes of `card` and `cart`. -/
theorem chunk_comparator_witness :
    (1 ≤ 3 ∧ 3 ≤ 8 ∧ 3 ≤ (str "card").length ∧ 3 ≤ (str "cart").length) ∧
    ((∀ i, i < 8 → bits i = 2 ^ (8 * (8 - i)) - 1) ∧
    (∃ w, bits64 (str "card") (3 : Nat) = Except.ok w ∧ w < 2 ^ 64 ∧
      ∀ i, i < 8 → w / 256 ^ i % 256 =
        if i < 3 then (((str "card")[i]?).map Fin.val).getD 0 else 0) ∧
    (∃ r, match64 (str "card") (str "cart") (3 : Nat) = Except.ok r ∧
      (r = true ↔ (str "card").take 3 = (str "cart").take 3))) :=
  ⟨by decide, chunk_comparator (str "card") (str "cart") 3 (by decide) (by decide) (by decide)
    (by decide)⟩

/-! ## The common prefix -/

/-- What the loop of `hasPrefix` returns: started at `i` with enough steps left,
after `i` equal positions, it stops at the first position where the two strings
differ, or at `n`. -/
theorem hasPrefixLoop_spec (val s : List Byte) (n : Nat) :
    ∀ (fuel i : Nat), n ≤ i + fuel → i ≤ n → (∀ j, j < i → val[j]? = s[j]?) →
      i ≤ hasPrefixLoop val s n fuel i ∧ hasPrefixLoop val s n fuel i ≤ n ∧
      (∀ j, j < hasPrefixLoop val s n fuel i → val[j]? = s[j]?) ∧
      (hasPrefixLoop val s n fuel i = n ∨
        val[hasPrefixLoop val s n fuel i]? ≠ s[hasPrefixLoop val s n fuel i]?) := by
  intro fuel
  induction fuel with
  | zero =>
    intro i h1 h2 h3
    have : i = n := by omega
    simp only [hasPrefixLoop]
    exact ⟨le_refl _, h2, h3, Or.inl this⟩
  | succ k ih =>
    intro i h1 h2 h3
    unfold hasPrefixLoop
    split_ifs with h4 h5
    · exact ⟨le_refl _, h2, h3, Or.inr h5⟩
    · have h6 : ∀ j, j < i + 1 → val[j]? = s[j]? := by
        intro j hj
        rcases Nat.lt_succ_iff_lt_or_eq.mp hj with h | h
        · exact h3 j h
        · subst h; exact not_not.mp h5
      obtain ⟨a1, a2, a3, a4⟩ := ih (i + 1) (by omega) h4 h6
      exact ⟨by omega, a2, a3, a4⟩
    · have : i = n := by omega
      exact ⟨le_refl _, h2, h3, Or.inl this⟩

theorem take_eq_of_getElem? (u v : List Byte) (r : Nat)
    (h : ∀ j, j < r → u[j]? = v[j]?) : u.take r = v.take r := by
  apply List.ext_getElem?
  intro j
  by_cases hj : j < r
  · simp [List.getElem?_take, hj, h j hj]
  · rw [List.getElem?_eq_none (by simp; omega), List.getElem?_eq_none (by simp; omega)]

/-- The result of `hasPrefix` is the length of the longest common prefix of the
value of the node and the string. -/
theorem hasPrefix_lcp (b : Branch) (s : List Byte) :
    0 ≤ b.hasPrefix s ∧ b.hasPrefix s ≤ min (len b.val) (len s) ∧
      b.val.take (b.hasPrefix s).toNat = s.take (b.hasPrefix s).toNat ∧
      (b.hasPrefix s = min (len b.val) (len s) ∨
        (b.hasPrefix s < min (len b.val) (len s) ∧
          b.val[(b.hasPrefix s).toNat]? ≠ s[(b.hasPrefix s).toNat]?)) := by
  have hn : (if s.length < b.val.length then s.length else b.val.length)
      = min b.val.length s.length := by
    split_ifs <;> omega
  have h := hasPrefixLoop_spec b.val s (min b.val.length s.length)
    (min b.val.length s.length) 0 (by omega) (Nat.zero_le _) (by intro j hj; omega)
  obtain ⟨_, h2, h3, h4⟩ := h
  simp only [Branch.hasPrefix, len, hn, Int.toNat_ofNat]
  refine ⟨Int.ofNat_nonneg _, by omega, ?_, ?_⟩
  · exact take_eq_of_getElem? _ _ _ h3
  · rcases h4 with h4 | h4
    · left; omega
    · by_cases h5 : hasPrefixLoop b.val s (min b.val.length s.length)
          (min b.val.length s.length) 0 = min b.val.length s.length
      · left; omega
      · right; exact ⟨by omega, h4⟩

/-- C14.  `hasPrefix` returns the length of the longest common prefix of the
value `v` of the node and the string `s`: the result `r` lies between 0 and
`min (len v) (len s)`, the first `r` bytes of `v` and `s` are equal, and either
`r` is that minimum or `v[r]` and `s[r]` differ.  The value `hello` against
`hell` gives 4. -/
theorem hasPrefix_longest_common_prefix :
    (∀ (b : Branch) (s : List Byte),
      0 ≤ b.hasPrefix s ∧ b.hasPrefix s ≤ min (len b.val) (len s) ∧
      b.val.take (b.hasPrefix s).toNat = s.take (b.hasPrefix s).toNat ∧
      (b.hasPrefix s = min (len b.val) (len s) ∨
        (b.hasPrefix s < min (len b.val) (len s) ∧
          b.val[(b.hasPrefix s).toNat]? ≠ s[(b.hasPrefix s).toNat]?))) ∧
    (Branch.mk (str "hello") [] [] 0 0).hasPrefix (str "hell") = 4 :=
  ⟨hasPrefix_lcp, by decide⟩

/-! ## Calls of the comparator, cached offsets, prefix check, cursor skip -/

set_option maxRecDepth 100000 in
/-- C13 (the scanner meets the precondition of the comparator) fails on the
code.  In the second scenario of the test suite the scan calls
`matchFirstN(s, 6)` on the five-byte suffix `cario` (the test on the whole value
`canary`), so `bits64` is asked for six bytes of a five-byte string; the scan
still returns `("", false)` there, because the bytes inside the text already
differ from the cached word.  With the pattern `hello` and the text `worldhell`
the call `matchFirstN(s, 5)` on the suffix `hell` is decided by the byte that
follows the text. -/
theorem comparator_called_past_text_end :
    (⟨6, 5⟩ : Call) ∈ scanCalls [str "ananas", str "and", str "banderole", str "banana",
        str "bandana", str "card", str "canary", str "carry"] (str "ananafcario") ∧
      ¬ ((6 : Int) ≤ 5) ∧
      scan [str "ananas", str "and", str "banderole", str "banana", str "bandana", str "card",
        str "canary", str "carry"] (str "ananafcario") = Except.ok ([], false) ∧
      (⟨5, 4⟩ : Call) ∈ scanCalls [str "hello"] (str "worldhell") ∧
      scan [str "hello"] (str "worldhell") = Except.error Err.readPastEnd := by
  decide

/-- C16 (the cached offset is the smallest child key) fails on the code.  After
the insertions of `ab`, `a`, `abc` the node that held `ab` has been cut to the
empty value by the split for `abc`; it still has its child under the key 1, and
its cached offset is 0. -/
theorem cached_offset_not_min_key :
    insertAll (Branch.mk [] [] [] 0 0) [str "ab", str "a", str "abc"] =
      Except.ok (Branch.mk [] [(0, [Branch.mk (str "abc")
        [(2, [Branch.mk [] [(1, [Branch.mk [] [] [] 0 0])] [] 0 0])] [] 2 0])] [] 0 0) ∧
    ¬ AllNodes MinOffsetCached (Branch.mk [] [(0, [Branch.mk (str "abc")
        [(2, [Branch.mk [] [(1, [Branch.mk [] [] [] 0 0])] [] 0 0])] [] 2 0])] [] 0 0) := by
  refine ⟨rfl, ?_⟩
  intro h
  have h1 := h.below_of (0, [Branch.mk (str "abc")
    [(2, [Branch.mk [] [(1, [Branch.mk [] [] [] 0 0])] [] 0 0])] [] 2 0]) (List.Mem.head _)
    _ (List.Mem.head _)
  have h2 := h1.below_of (2, [Branch.mk [] [(1, [Branch.mk [] [] [] 0 0])] [] 0 0])
    (List.Mem.head _) _ (List.Mem.head _)
  have h3 : (0 : Int) = 1 := h2.here_of
  exact absurd h3 (by decide)

/-- C18 (the prefix check is correct at a node with a single child offset) fails
on the code.  In the trie of `abc` and `abd` the node `abc` has its only child
under the key 2; on the text `abcx`, of which `abc` is a prefix, `matchPrefix`
returns 2 and not 3: the test on the whole value compares three bytes of the
text with the word cached for two. -/
theorem prefix_check_wrong_at_single_offset :
    New [str "abc", str "abd"] = Except.ok ⟨Branch.mk [] [(0, [Branch.mk (str "abc")
        [(2, [Branch.mk (str "d") [] [] 1 100])] [2] 2 25185])] [0] 0 0⟩ ∧
      (Branch.mk (str "abc") [(2, [Branch.mk (str "d") [] [] 1 100])] [2] 2 25185).matchPrefix
        (str "abcx") = Except.ok 2 ∧
      (str "abc").isPrefixOf (str "abcx") = true ∧ (str "abc").length ≤ (str "abcx").length := by
  refine ⟨rfl, ?_, ?_, ?_⟩ <;> decide

set_option maxRecDepth 100000 in
/-- C19 (the cursor skip loses no match) fails on the code.  With the single
pattern `aab` and the text `aaabx` the descent at position 0 fails with the
advance 3, the pattern occurs at position 1, strictly inside the skipped range,
and the scan ends without a match. -/
theorem cursor_skip_loses_match :
    rootDescent [str "aab"] (str "aaabx") 0 = Except.ok (3, false) ∧
      occursAt (str "aab") (str "aaabx") 1 ∧
      scan [str "aab"] (str "aaabx") = Except.ok ([], false) := by
  decide


/-! ## Maps and lists -/

theorem mapGet_mapSet_same {α : Type} (m : List (Int × List α)) (key : Int) (v : List α) :
    mapGet (mapSet m key v) key = v := by
  induction m with
  | nil => simp [mapSet, mapGet]
  | cons e rest ih =>
    obtain ⟨k, l⟩ := e
    unfold mapSet
    split_ifs with hk
    · simp [mapGet, hk]
    · simp [mapGet, hk, ih]

theorem keys_mapSet {α : Type} (m : List (Int × List α)) (key : Int) (v : List α) :
    (mapSet m key v).map Prod.fst =
      if key ∈ m.map Prod.fst then m.map Prod.fst else m.map Prod.fst ++ [key] := by
  induction m with
  | nil => simp [mapSet]
  | cons e rest ih =>
    obtain ⟨k, l⟩ := e
    unfold mapSet
    by_cases hk : k = key
    · simp [hk]
    · have hk2 : ¬ key = k := fun h => hk h.symm
      simp only [hk, if_false, List.map_cons, ih, List.mem_cons, hk2, false_or]
      split_ifs <;> simp

theorem nodup_keys_mapSet {α : Type} (m : List (Int × List α)) (key : Int) (v : List α)
    (h : (m.map Prod.fst).Nodup) : ((mapSet m key v).map Prod.fst).Nodup := by
  rw [keys_mapSet]
  split_ifs with hk
  · exact h
  · exact List.nodup_append.mpr ⟨h, List.nodup_singleton _, by
      intro a ha hb
      simp only [List.mem_singleton] at hb
      exact hk (hb ▸ ha)⟩

theorem mapGet_eq {α : Type} (m : List (Int × List α)) (key : Int) :
    mapGet m key = [] ∨ ∃ kl ∈ m, kl.1 = key ∧ kl.2 = mapGet m key := by
  induction m with
  | nil => left; rfl
  | cons e rest ih =>
    obtain ⟨k, l⟩ := e
    unfold mapGet
    split_ifs with hk
    · right; exact ⟨(k, l), by simp, hk, rfl⟩
    · rcases ih with h | ⟨kl, hkl, h1, h2⟩
      · left; exact h
      · right; exact ⟨kl, by simp [hkl], h1, h2⟩

theorem pairwise_set {α : Type} {R : α → α → Prop} :
    ∀ (l : List α) (j : Nat) (x y : α), l.Pairwise R → l[j]? = some y →
      (∀ c, R c y → R c x) → (∀ c, R y c → R x c) → (l.set j x).Pairwise R := by
  intro l
  induction l with
  | nil => intro j x y _ _ _ _; simp
  | cons a t ih =>
    intro j x y h hy h1 h2
    rw [List.pairwise_cons] at h
    cases j with
    | zero =>
      simp only [List.getElem?_cons_zero, Option.some.injEq] at hy
      subst hy
      simp only [List.set_cons_zero, List.pairwise_cons]
      exact ⟨fun c hc => h2 c (h.1 c hc), h.2⟩
    | succ j =>
      simp only [List.getElem?_cons_succ] at hy
      simp only [List.set_cons_succ, List.pairwise_cons]
      refine ⟨?_, ih j x y h.2 hy h1 h2⟩
      intro c hc
      rcases List.mem_or_eq_of_mem_set hc with h3 | h3
      · exact h.1 c h3
      · subst h3
        exact h1 a (h.1 y (List.getElem?_mem hy))

/-! ## The scan of `append` -/

theorem hasPrefix_eq_zero_iff (b : Branch) (s : List Byte) :
    b.hasPrefix s = 0 ↔ NoSharedPrefix b.val s := by
  obtain ⟨h0, h1, h2, h3⟩ := hasPrefix_lcp b s
  unfold NoSharedPrefix
  constructor
  · intro h
    rw [h] at h3
    simp only [len, Int.toNat_zero] at h3
    rcases h3 with h3 | ⟨_, h3⟩
    · by_cases hv : b.val = []
      · left; exact hv
      · right; left
        have : 0 < b.val.length := List.length_pos.mpr hv
        have : s.length = 0 := by omega
        exact List.length_eq_zero.mp this
    · right; right; exact h3
  · intro h
    by_contra hne
    have hpos : 1 ≤ b.hasPrefix s := by omega
    simp only [len] at h1
    have hv : 1 ≤ b.val.length := by omega
    have hs : 1 ≤ s.length := by omega
    rcases h with h | h | h
    · simp [h] at hv
    · simp [h] at hs
    · apply h
      have h4 := congrArg (fun l => l[0]?) h2
      simp only [List.getElem?_take] at h4
      have h5 : 0 < (b.hasPrefix s).toNat := by omega
      simpa [h5] using h4

theorem appendScan_some (p : List Byte) : ∀ (l : List Branch) (j : Nat) (max : Int)
    (b : Branch) (mj : Nat), (appendScan p l j (max, some b, mj)).2.1 ≠ none := by
  intro l
  induction l with
  | nil => intro j max b mj; simp [appendScan]
  | cons br rest ih =>
    intro j max b mj
    unfold appendScan
    simp only
    split_ifs
    · exact ih _ _ _ _
    · exact ih _ _ _ _

/-- When the scan ends without a candidate, no child shares a prefix with `p`. -/
theorem appendScan_none (p : List Byte) : ∀ (l : List Branch) (j mj : Nat),
    (appendScan p l j (0, none, mj)).2.1 = none → ∀ c ∈ l, c.hasPrefix p = 0 := by
  intro l
  induction l with
  | nil => intro j mj _ c hc; simp at hc
  | cons br rest ih =>
    intro j mj h c hc
    unfold appendScan at h
    simp only at h
    split_ifs at h with hn
    · exact absurd h (appendScan_some p rest _ _ _ _)
    · have h0 : br.hasPrefix p = 0 := by
        have := hasPrefix_nonneg br p
        by_contra h1
        exact hn ⟨h1, by omega⟩
      rcases List.mem_cons.mp hc with h1 | h1
      · rw [h1]; exact h0
      · exact ih _ _ h c h1

/-- Over children that share no prefix with `p` the scan keeps its state. -/
theorem appendScan_skip (p : List Byte) : ∀ (l : List Branch) (j : Nat)
    (st : Int × Option Branch × Nat), 0 ≤ st.1 → (∀ c ∈ l, c.hasPrefix p = 0) →
    appendScan p l j st = st := by
  intro l
  induction l with
  | nil => intro j st _ _; simp [appendScan]
  | cons br rest ih =>
    intro j st h0 h
    obtain ⟨max, mb, mj⟩ := st
    unfold appendScan
    simp only
    have hbr : br.hasPrefix p = 0 := h br (by simp)
    simp only [hbr, ne_eq, not_true_eq_false, false_and, if_false]
    exact ih _ _ h0 (fun c hc => h c (by simp [hc]))

/-- When exactly one child shares a prefix with `p`, the scan selects it. -/
theorem appendScan_unique (p : List Byte) : ∀ (l : List Branch) (j mj i : Nat) (c : Branch),
    l[i]? = some c → c.hasPrefix p ≠ 0 →
    (∀ k d, k ≠ i → l[k]? = some d → d.hasPrefix p = 0) →
    appendScan p l j (0, none, mj) = (c.hasPrefix p, some c, j + i) := by
  intro l
  induction l with
  | nil => intro j mj i c h; simp at h
  | cons br rest ih =>
    intro j mj i c hc hne hothers
    cases i with
    | zero =>
      simp only [List.getElem?_cons_zero, Option.some.injEq] at hc
      subst hc
      have hpos : br.hasPrefix p > 0 := by
        have := hasPrefix_nonneg br p
        omega
      unfold appendScan
      simp only [hne, hpos, ne_eq, not_false_eq_true, and_self, if_true, Nat.add_zero]
      apply appendScan_skip p rest (j + 1) _ (by simp only; omega)
      intro d hd
      obtain ⟨k, hk⟩ := List.getElem?_of_mem hd
      exact hothers (k + 1) d (by omega) (by simpa using hk)
    | succ i =>
      simp only [List.getElem?_cons_succ] at hc
      have hbr : br.hasPrefix p = 0 := hothers 0 br (by omega) (by simp)
      unfold appendScan
      simp only [hbr, ne_eq, not_true_eq_false, false_and, if_false]
      rw [ih (j + 1) mj i c hc hne (fun k d hk hd =>
        hothers (k + 1) d (by omega) (by simpa using hd))]
      congr 2
      omega

/-! ## The three ways an insertion step ends -/

/-- Inversion of one step of `append`: the returned node is the old one with a
new leaf, with the selected child split, or with the selected child grown. -/
theorem append_cases (fuel : Nat) (val : List Byte) (sub : List (Int × List Branch))
    (offsets : List Int) (boffset : Int) (offsetv : Nat) (offset : Int) (p : List Byte)
    (b1 : Branch)
    (h : (Branch.mk val sub offsets boffset offsetv).append (fuel + 1) offset p = Except.ok b1) :
    ((∀ c ∈ mapGet sub offset, c.hasPrefix p = 0) ∧
      b1 = Branch.mk val (mapSet sub offset (mapGet sub offset ++ [newBranch p])) offsets
        (if boffset > offset then offset else boffset) offsetv) ∨
    (∃ (mb : Branch) (maxj : Nat),
      appendScan p (mapGet sub offset) 0 (0, none, 0) = (mb.hasPrefix p, some mb, maxj) ∧
      (mapGet sub offset)[maxj]? = some mb ∧ 1 ≤ mb.hasPrefix p ∧
      ((len mb.val < len p ∧
        b1 = Branch.mk val (mapSet sub offset ((mapGet sub offset).set maxj
          (Branch.mk p [(mb.hasPrefix p, [Branch.mk (mb.val.drop (mb.hasPrefix p).toNat) mb.sub
            mb.offsets (len (mb.val.drop (mb.hasPrefix p).toNat)) mb.offsetv])] []
            (mb.hasPrefix p) 0))) offsets boffset offsetv) ∨
       (¬ len mb.val < len p ∧ ∃ g,
        mb.append fuel (mb.hasPrefix p) (p.drop (mb.hasPrefix p).toNat) = Except.ok g ∧
        b1 = Branch.mk val (mapSet sub offset ((mapGet sub offset).set maxj g)) offsets
          boffset offsetv))) := by
  have hgood := appendScan_good p (mapGet sub offset) [] 0 (0, none, 0) rfl
    ⟨le_refl _, by intro b hb; simp at hb⟩
  rcases hscan : appendScan p (mapGet sub offset) 0 (0, none, 0) with ⟨max, maxb, maxj⟩
  rw [hscan] at hgood
  simp only [List.nil_append] at hgood
  cases maxb with
  | none =>
    left
    refine ⟨appendScan_none p _ 0 0 (by rw [hscan]), ?_⟩
    simp only [Branch.append, hscan] at h
    exact (Except.ok.inj h).symm
  | some mb =>
    right
    obtain ⟨_, hmb⟩ := hgood
    obtain ⟨hget, hmaxeq, hmax1⟩ := hmb mb rfl
    simp only at hget hmaxeq hmax1
    subst hmaxeq
    have hlt : maxj < (mapGet sub offset).length := (List.getElem?_eq_some_iff.mp hget).1
    have hle1 := hasPrefix_le_val mb p
    have hle2 := hasPrefix_le_arg mb p
    have hnn := hasPrefix_nonneg mb p
    refine ⟨mb, maxj, rfl, hget, hmax1, ?_⟩
    by_cases hlen : len mb.val < len p
    · left
      refine ⟨hlen, ?_⟩
      simp only [Branch.append, hscan, hlen, if_true, sliceFrom, setAt, hlt, hle1, hnn,
        and_self] at h
      exact (Except.ok.inj h).symm
    · right
      refine ⟨hlen, ?_⟩
      simp only [Branch.append, hscan, hlen, if_false, sliceFrom, hle2, hnn, and_self,
        if_true] at h
      cases hg : mb.append fuel (mb.hasPrefix p) (p.drop (mb.hasPrefix p).toNat) with
      | error e =>
        rw [show (pure (List.drop (mb.hasPrefix p).toNat p) : Run (List Byte)) =
          Except.ok (List.drop (mb.hasPrefix p).toNat p) from rfl] at h
        simp only [bind, Except.bind, hg] at h
        exact absurd h (by simp)
      | ok g =>
        rw [show (pure (List.drop (mb.hasPrefix p).toNat p) : Run (List Byte)) =
          Except.ok (List.drop (mb.hasPrefix p).toNat p) from rfl] at h
        simp only [bind, Except.bind, hg] at h
        exact ⟨g, rfl, (Except.ok.inj h).symm⟩

/-! ## The shape that insertion maintains -/

theorem below_mapSet {P : Branch → Prop} (sub : List (Int × List Branch)) (offset : Int)
    (l : List Branch) (hold : ∀ kl ∈ sub, ∀ c ∈ kl.2, AllNodes P c)
    (hnew : ∀ c ∈ l, AllNodes P c) :
    ∀ kl ∈ mapSet sub offset l, ∀ c ∈ kl.2, AllNodes P c := by
  intro kl hkl c hc
  rcases mem_mapSet _ _ _ _ hkl with h1 | h1
  · exact hold kl h1 c hc
  · rw [h1] at hc; exact hnew c hc

theorem apart_mapSet (sub : List (Int × List Branch)) (offset : Int) (l : List Branch)
    (hold : ∀ kl ∈ sub, kl.2.Pairwise fun c d => NoSharedPrefix c.val d.val)
    (hnew : l.Pairwise fun c d => NoSharedPrefix c.val d.val) :
    ∀ kl ∈ mapSet sub offset l, kl.2.Pairwise fun c d => NoSharedPrefix c.val d.val := by
  intro kl hkl
  rcases mem_mapSet _ _ _ _ hkl with h1 | h1
  · exact hold kl h1
  · rw [h1]; exact hnew

theorem apart_mapGet (sub : List (Int × List Branch)) (offset : Int)
    (hold : ∀ kl ∈ sub, kl.2.Pairwise fun c d => NoSharedPrefix c.val d.val) :
    (mapGet sub offset).Pairwise fun c d => NoSharedPrefix c.val d.val := by
  rcases mapGet_eq sub offset with h | ⟨kl, hkl, _, h⟩
  · rw [h]; exact List.Pairwise.nil
  · rw [← h]; exact hold kl hkl

theorem shared_prefix_first_byte (b : Branch) (p : List Byte) (h : 1 ≤ b.hasPrefix p) :
    b.val ≠ [] ∧ p ≠ [] ∧ b.val[0]? = p[0]? := by
  have hne : ¬ NoSharedPrefix b.val p := by
    rw [← hasPrefix_eq_zero_iff]; omega
  unfold NoSharedPrefix at hne
  push_neg at hne
  exact hne

theorem allNodes_shape_newBranch (p : List Byte) : AllNodes NodeShape (newBranch p) := by
  refine AllNodes.node _ ⟨?_, ?_⟩ ?_
  · simp [KeysDistinct, newBranch]
  · intro kl hkl; simp [newBranch] at hkl
  · intro kl hkl; simp [newBranch] at hkl

/-- Insertion keeps the value of the node it is applied to and the shape of
every node of the tree. -/
theorem append_shape : ∀ (fuel : Nat) (b : Branch) (offset : Int) (p : List Byte) (b1 : Branch),
    AllNodes NodeShape b → b.append fuel offset p = Except.ok b1 →
    b1.val = b.val ∧ AllNodes NodeShape b1 := by
  intro fuel
  induction fuel with
  | zero =>
    intro b offset p b1 _ h
    simp only [Branch.append] at h
    exact absurd h (by intro h2; cases h2)
  | succ fuel ih =>
    intro b offset p b1 hall h
    obtain ⟨val, sub, offsets, boffset, offsetv⟩ := b
    have hhere := hall.here_of
    have hbelow := hall.below_of
    simp only [Branch.sub_mk] at hbelow
    obtain ⟨hkeys, hapart⟩ := hhere
    simp only [KeysDistinct, SiblingsApart, Branch.sub_mk] at hkeys hapart
    have hl := apart_mapGet sub offset hapart
    rcases append_cases fuel val sub offsets boffset offsetv offset p b1 h with
      ⟨hzero, hb1⟩ | ⟨mb, maxj, _, hget, hmax1, hcase⟩
    · subst hb1
      refine ⟨rfl, AllNodes.node _ ⟨?_, ?_⟩ ?_⟩
      · simp only [KeysDistinct, Branch.sub_mk]
        exact nodup_keys_mapSet _ _ _ hkeys
      · simp only [SiblingsApart, Branch.sub_mk]
        apply apart_mapSet _ _ _ hapart
        rw [List.pairwise_append]
        refine ⟨hl, List.pairwise_singleton _ _, ?_⟩
        intro c hc d hd
        simp only [List.mem_singleton] at hd
        subst hd
        exact (hasPrefix_eq_zero_iff c p).mp (hzero c hc)
      · simp only [Branch.sub_mk]
        apply below_mapSet _ _ _ hbelow
        intro c hc
        rcases List.mem_append.mp hc with h2 | h2
        · exact hall.of_mapGet offset c h2
        · simp only [List.mem_singleton] at h2
          rw [h2]; exact allNodes_shape_newBranch p
    · have hmem : mb ∈ mapGet sub offset := List.getElem?_mem hget
      have hmball : AllNodes NodeShape mb := hall.of_mapGet offset mb hmem
      obtain ⟨hv, hp, hfirst⟩ := shared_prefix_first_byte mb p hmax1
      rcases hcase with ⟨_, hb1⟩ | ⟨_, g, hg, hb1⟩
      · subst hb1
        refine ⟨rfl, AllNodes.node _ ⟨?_, ?_⟩ ?_⟩
        · simp only [KeysDistinct, Branch.sub_mk]
          exact nodup_keys_mapSet _ _ _ hkeys
        · simp only [SiblingsApart, Branch.sub_mk]
          apply apart_mapSet _ _ _ hapart
          apply pairwise_set _ _ _ mb hl hget
          · intro c hc
            simp only [Branch.val_mk]
            rcases hc with h1 | h1 | h1
            · exact Or.inl h1
            · exact absurd h1 hv
            · exact Or.inr (Or.inr (hfirst ▸ h1))
          · intro c hc
            simp only [Branch.val_mk]
            rcases hc with h1 | h1 | h1
            · exact absurd h1 hv
            · exact Or.inr (Or.inl h1)
            · exact Or.inr (Or.inr (hfirst ▸ h1))
        · simp only [Branch.sub_mk]
          apply below_mapSet _ _ _ hbelow
          intro c hc
          rcases List.mem_or_eq_of_mem_set hc with h2 | h2
          · exact hall.of_mapGet offset c h2
          · subst h2
            refine AllNodes.node _ ⟨?_, ?_⟩ ?_
            · simp [KeysDistinct]
            · intro kl hkl
              simp only [Branch.sub_mk, List.mem_singleton] at hkl
              subst hkl
              exact List.pairwise_singleton _ _
            · intro kl hkl c2 hc2
              simp only [Branch.sub_mk, List.mem_singleton] at hkl
              subst hkl
              simp only [List.mem_singleton] at hc2
              subst hc2
              refine AllNodes.node _ ⟨?_, ?_⟩ ?_
              · exact hmball.here_of.1
              · exact hmball.here_of.2
              · exact hmball.below_of
      · obtain ⟨hgval, hgall⟩ := ih mb _ _ g hmball hg
        subst hb1
        refine ⟨rfl, AllNodes.node _ ⟨?_, ?_⟩ ?_⟩
        · simp only [KeysDistinct, Branch.sub_mk]
          exact nodup_keys_mapSet _ _ _ hkeys
        · simp only [SiblingsApart, Branch.sub_mk]
          apply apart_mapSet _ _ _ hapart
          apply pairwise_set _ _ _ mb hl hget
          · intro c hc; rw [hgval]; exact hc
          · intro c hc; rw [hgval]; exact hc
        · simp only [Branch.sub_mk]
          apply below_mapSet _ _ _ hbelow
          intro c hc
          rcases List.mem_or_eq_of_mem_set hc with h2 | h2
          · exact hall.of_mapGet offset c h2
          · subst h2; exact hgall

theorem insertAll_shape : ∀ (patterns : List (List Byte)) (root r : Branch),
    AllNodes NodeShape root → insertAll root patterns = Except.ok r → AllNodes NodeShape r := by
  intro patterns
  induction patterns with
  | nil =>
    intro root r hall h
    simp only [insertAll] at h
    rw [← Except.ok.inj h]; exact hall
  | cons p rest ih =>
    intro root r hall h
    rw [insertAll] at h
    cases h1 : root.append (p.length + 1) 0 p with
    | error e => rw [h1] at h; exact absurd h (by intro h2; cases h2)
    | ok r1 =>
      rw [h1] at h
      exact ih r1 r (append_shape _ _ _ _ _ hall h1).2 h

theorem allNodes_shape_emptyRoot : AllNodes NodeShape (Branch.mk [] [] [] 0 0) :=
  AllNodes.node _ ⟨by simp [KeysDistinct], fun kl hkl => by simp at hkl⟩
    (fun kl hkl => by simp at hkl)

theorem AllNodes.imp {P Q : Branch → Prop} (hPQ : ∀ b, P b → Q b) {b : Branch}
    (h : AllNodes P b) : AllNodes Q b := by
  induction h with
  | node b here _ ih => exact AllNodes.node b (hPQ b here) ih

theorem pairwise_getElem? {α : Type} {R : α → α → Prop} (hsymm : ∀ a b, R a b → R b a) :
    ∀ (l : List α), l.Pairwise R → ∀ (i j : Nat) (c d : α), i ≠ j → l[i]? = some c →
      l[j]? = some d → R c d := by
  intro l
  induction l with
  | nil => intro _ i j c d _ hc; simp at hc
  | cons a t ih =>
    intro h i j c d hij hc hd
    rw [List.pairwise_cons] at h
    cases i with
    | zero =>
      cases j with
      | zero => exact absurd rfl hij
      | succ j =>
        simp only [List.getElem?_cons_zero, Option.some.injEq] at hc
        simp only [List.getElem?_cons_succ] at hd
        subst hc
        exact h.1 d (List.getElem?_mem hd)
    | succ i =>
      simp only [List.getElem?_cons_succ] at hc
      cases j with
      | zero =>
        simp only [List.getElem?_cons_zero, Option.some.injEq] at hd
        subst hd
        exact hsymm _ _ (h.1 c (List.getElem?_mem hc))
      | succ j =>
        simp only [List.getElem?_cons_succ] at hd
        exact ih h.2 i j c d (by omega) hc hd

theorem noSharedPrefix_symm (u v : List Byte) (h : NoSharedPrefix u v) : NoSharedPrefix v u := by
  rcases h with h | h | h
  · exact Or.inr (Or.inl h)
  · exact Or.inl h
  · exact Or.inr (Or.inr (fun h2 => h h2.symm))

/-- A node of the maintained shape has disjoint siblings and at most one
candidate for every insertion step, the one that the scan selects. -/
theorem shape_disjoint (b : Branch) (h : NodeShape b) : SiblingsDisjoint b ∧ OneCandidate b := by
  obtain ⟨_, hapart⟩ := h
  have hidx : ∀ (l : List Branch), (l.Pairwise fun c d => NoSharedPrefix c.val d.val) →
      ∀ (i j : Nat) (c d : Branch), i ≠ j → l[i]? = some c → l[j]? = some d →
        NoSharedPrefix c.val d.val := fun l hl =>
    pairwise_getElem? (R := fun c d : Branch => NoSharedPrefix c.val d.val)
      (fun a b hab => noSharedPrefix_symm _ _ hab) l hl
  constructor
  · intro kl hkl i j c d hij hc hd
    have hR := hidx kl.2 (hapart kl hkl) i j c d hij hc hd
    exact ⟨(hasPrefix_eq_zero_iff c d.val).mpr hR, hR⟩
  · intro offset p
    have hl := apart_mapGet b.sub offset hapart
    have huniq : ∀ (i j : Nat) (c d : Branch), (mapGet b.sub offset)[i]? = some c →
        (mapGet b.sub offset)[j]? = some d → c.hasPrefix p ≠ 0 → d.hasPrefix p ≠ 0 → i = j := by
      intro i j c d hc hd hcp hdp
      by_contra hij
      have hR := hidx _ hl i j c d hij hc hd
      obtain ⟨hc1, _, hc3⟩ := shared_prefix_first_byte c p (by
        have := hasPrefix_nonneg c p; omega)
      obtain ⟨hd1, _, hd3⟩ := shared_prefix_first_byte d p (by
        have := hasPrefix_nonneg d p; omega)
      rcases hR with h1 | h1 | h1
      · exact hc1 h1
      · exact hd1 h1
      · exact h1 (hc3.trans hd3.symm)
    refine ⟨huniq, ?_⟩
    intro i c hc hcp
    have := appendScan_unique p (mapGet b.sub offset) 0 0 i c hc hcp (by
      intro k d hk hd
      by_contra hdp
      exact hk (huniq k i d c hd hc hdp hcp))
    simpa using this

/-- C17.  After any sequence of insertions into the empty root, every node has
disjoint siblings: two children at different positions of one child list have
common-prefix length 0 (one value is empty or the first bytes differ).  Hence,
at every node and for every key and pattern, at most one child of the list has a
non-zero shared prefix with the pattern, and the scan of `append` selects it. -/
theorem sibling_disjointness (patterns : List (List Byte)) :
    ∃ root, insertAll (Branch.mk [] [] [] 0 0) patterns = Except.ok root ∧
      AllNodes (fun b => SiblingsDisjoint b ∧ OneCandidate b) root := by
  obtain ⟨root, h1, _, _⟩ := insertAll_ok patterns (Branch.mk [] [] [] 0 0) rfl allNodes_emptyRoot
  exact ⟨root, h1, (insertAll_shape patterns _ root allNodes_shape_emptyRoot h1).imp shape_disjoint⟩


/-! ## What `finalize` returns -/

theorem finalizeList_forall₂ : ∀ (l l1 : List Branch), finalizeList l = Except.ok l1 →
    List.Forall₂ (fun c c1 => c.finalize = Except.ok c1) l l1 := by
  intro l
  induction l with
  | nil =>
    intro l1 h
    simp only [finalizeList] at h
    rw [← Except.ok.inj h]; exact List.Forall₂.nil
  | cons c rest ih =>
    intro l1 h
    simp only [finalizeList] at h
    cases hc : c.finalize with
    | error e => rw [hc] at h; exact absurd h (by intro h2; cases h2)
    | ok c1 =>
      cases hr : finalizeList rest with
      | error e => rw [hc, hr] at h; exact absurd h (by intro h2; cases h2)
      | ok r1 =>
        rw [hc, hr] at h
        rw [← Except.ok.inj h]
        exact List.Forall₂.cons hc (ih r1 hr)

theorem finalizeSub_forall₂ : ∀ (m m1 : List (Int × List Branch)),
    finalizeSub m = Except.ok m1 →
    List.Forall₂ (fun kl kl1 => kl1.1 = kl.1 ∧ finalizeList kl.2 = Except.ok kl1.2) m m1 := by
  intro m
  induction m with
  | nil =>
    intro m1 h
    simp only [finalizeSub] at h
    rw [← Except.ok.inj h]; exact List.Forall₂.nil
  | cons e rest ih =>
    intro m1 h
    obtain ⟨k, l⟩ := e
    simp only [finalizeSub] at h
    cases hl : finalizeList l with
    | error e => rw [hl] at h; exact absurd h (by intro h2; cases h2)
    | ok l1 =>
      cases hr : finalizeSub rest with
      | error e => rw [hl, hr] at h; exact absurd h (by intro h2; cases h2)
      | ok r1 =>
        rw [hl, hr] at h
        rw [← Except.ok.inj h]
        exact List.Forall₂.cons ⟨rfl, hl⟩ (ih r1 hr)

/-- Inversion of `finalize` at a node. -/
theorem finalize_cases (val : List Byte) (sub : List (Int × List Branch)) (offsets : List Int)
    (offset : Int) (offsetv : Nat) (b1 : Branch)
    (h : (Branch.mk val sub offsets offset offsetv).finalize = Except.ok b1) :
    ∃ sub1 w, finalizeSub sub = Except.ok sub1 ∧
      b1 = Branch.mk val sub1 ((sub.map Prod.fst).insertionSort (· ≤ ·)) offset w ∧
      (val ≠ [] → bits64 val offset = Except.ok w) ∧ (val = [] → w = offsetv) := by
  simp only [Branch.finalize] at h
  cases hs : finalizeSub sub with
  | error e => rw [hs] at h; exact absurd h (by intro h2; cases h2)
  | ok sub1 =>
    rw [hs] at h
    by_cases hv : val = []
    · simp only [hv, ne_eq, not_true_eq_false, if_false] at h
      exact ⟨sub1, offsetv, rfl, by rw [← Except.ok.inj h, hv], fun h2 => absurd hv h2,
        fun _ => rfl⟩
    · simp only [ne_eq, hv, not_false_eq_true, if_true] at h
      cases hw : bits64 val offset with
      | error e => rw [hw] at h; exact absurd h (by intro h2; cases h2)
      | ok w =>
        rw [hw] at h
        exact ⟨sub1, w, rfl, (Except.ok.inj h).symm, fun _ => rfl, fun h2 => absurd h2 hv⟩

theorem forall₂_mem_right {α β : Type} {R : α → β → Prop} : ∀ {l : List α} {l1 : List β},
    List.Forall₂ R l l1 → ∀ y ∈ l1, ∃ x ∈ l, R x y := by
  intro l l1 h
  induction h with
  | nil => intro y hy; simp at hy
  | cons hab _ ih =>
    intro y hy
    rcases List.mem_cons.mp hy with h1 | h1
    · subst h1; exact ⟨_, by simp, hab⟩
    · obtain ⟨x, hx, hR⟩ := ih y h1
      exact ⟨x, by simp [hx], hR⟩

theorem forall₂_keys : ∀ {m m1 : List (Int × List Branch)},
    List.Forall₂ (fun kl kl1 => kl1.1 = kl.1 ∧ finalizeList kl.2 = Except.ok kl1.2) m m1 →
    m1.map Prod.fst = m.map Prod.fst := by
  intro m m1 h
  induction h with
  | nil => rfl
  | cons hab _ ih => simp [hab.1, ih]

/-- `finalize` establishes its postcondition at every node of a tree with
distinct keys. -/
theorem finalize_finalized : ∀ (b : Branch), AllNodes NodeShape b → ∀ b1,
    b.finalize = Except.ok b1 → AllNodes Finalized b1 := by
  intro b h
  induction h with
  | node b here _ ih =>
    intro b1 hfin
    obtain ⟨val, sub, offsets, offset, offsetv⟩ := b
    simp only [Branch.sub_mk] at ih
    obtain ⟨sub1, w, hsub, hb1, hw, _⟩ := finalize_cases val sub offsets offset offsetv b1 hfin
    subst hb1
    have hf := finalizeSub_forall₂ sub sub1 hsub
    have hkeys : sub1.map Prod.fst = sub.map Prod.fst := forall₂_keys hf
    refine AllNodes.node _ ⟨?_, ?_, ?_⟩ ?_
    · simp only [Branch.offsets_mk]
      have hsorted := List.sorted_insertionSort (· ≤ ·) (sub.map Prod.fst)
      have hnodup : ((sub.map Prod.fst).insertionSort (· ≤ ·)).Nodup :=
        (List.perm_insertionSort (· ≤ ·) (sub.map Prod.fst)).nodup_iff.mpr here.1
      exact hsorted.lt_of_le hnodup
    · intro k
      simp only [Branch.offsets_mk, Branch.sub_mk, hkeys]
      exact List.mem_insertionSort (· ≤ ·)
    · intro hv
      simp only [Branch.val_mk, Branch.offset_mk, Branch.offsetv_mk] at hv ⊢
      exact hw hv
    · intro kl1 hkl1 c1 hc1
      simp only [Branch.sub_mk] at hkl1
      obtain ⟨kl, hkl, _, hlist⟩ := forall₂_mem_right hf kl1 hkl1
      obtain ⟨c, hc, hcfin⟩ := forall₂_mem_right (finalizeList_forall₂ _ _ hlist) c1 hc1
      exact ih kl hkl c hc c1 hcfin

/-- C15.  After `New`, at every node of the trie the list `offsets` is strictly
increasing and holds exactly the keys of the child map, and a node with a
non-empty value has `offsetv = bits64(val, offset)`. -/
theorem finalize_postcondition (patterns : List (List Byte)) :
    ∃ t, New patterns = Except.ok t ∧ AllNodes Finalized t.root := by
  obtain ⟨root, h1, _, hall⟩ :=
    insertAll_ok patterns (Branch.mk [] [] [] 0 0) rfl allNodes_emptyRoot
  obtain ⟨t, h2⟩ := finalize_ok root hall
  refine ⟨⟨t⟩, ?_, ?_⟩
  · unfold New; rw [h1]; show (root.finalize >>= _) = _; rw [h2]; rfl
  · exact finalize_finalized root (insertAll_shape patterns _ root allNodes_shape_emptyRoot h1)
      t h2


/-! ## Runs that do not abort -/

theorem bind_eq_ok {α β : Type} (r : Run α) (f : α → Run β) (v : β)
    (h : (r >>= f) = Except.ok v) : ∃ a, r = Except.ok a ∧ f a = Except.ok v := by
  cases r with
  | error e => exact absurd h (by intro h2; cases h2)
  | ok a => exact ⟨a, rfl, h⟩

theorem noAbort_ok {α : Type} (a : α) : NoAbort (Except.ok a : Run α) := by
  intro e h; cases h

theorem noAbort_pure {α : Type} (a : α) : NoAbort (pure a : Run α) := noAbort_ok a

theorem noAbort_bind {α β : Type} (r : Run α) (f : α → Run β) (hr : NoAbort r)
    (hf : ∀ a, NoAbort (f a)) : NoAbort (r >>= f) := by
  cases r with
  | error e =>
    intro e2 h
    have : e = e2 := by cases h; rfl
    exact this ▸ hr e rfl
  | ok a => exact hf a

theorem noAbort_index (s : List Byte) (i : Int) : NoAbort (index s i) := by
  intro e h
  unfold index at h
  split_ifs at h
  · split at h
    · cases h
    · cases h; exact ⟨by decide, by decide⟩
  · cases h; exact ⟨by decide, by decide⟩

theorem noAbort_sliceFrom (s : List Byte) (lo : Int) : NoAbort (sliceFrom s lo) := by
  intro e h
  unfold sliceFrom at h
  split_ifs at h
  · cases h
  · cases h; exact ⟨by decide, by decide⟩

theorem noAbort_sliceTo (s : List Byte) (hi : Int) : NoAbort (sliceTo s hi) := by
  intro e h
  unfold sliceTo at h
  split_ifs at h
  · cases h
  · cases h; exact ⟨by decide, by decide⟩

theorem noAbort_slice (s : List Byte) (lo hi : Int) : NoAbort (slice s lo hi) := by
  intro e h
  unfold slice at h
  split_ifs at h
  · cases h
  · cases h; exact ⟨by decide, by decide⟩

theorem noAbort_bits64 (a : List Byte) (n : Int) : NoAbort (bits64 a n) := by
  intro e h
  unfold bits64 at h
  simp only at h
  split_ifs at h <;> first | (cases h; done) | (cases h; exact ⟨by decide, by decide⟩)

theorem noAbort_eqBits64 (w : Nat) (s : List Byte) (n : Int) : NoAbort (eqBits64 w s n) := by
  intro e h
  unfold eqBits64 at h
  cases hb : bits64 s n with
  | ok v => rw [hb] at h; cases h
  | error e2 =>
    have h2 := noAbort_bits64 s n e2 hb
    rw [hb] at h
    cases e2 with
    | readPastEnd =>
      simp only at h
      split_ifs at h
      · cases h; exact ⟨by decide, by decide⟩
      · cases h
    | indexOutOfRange => cases h; exact h2
    | sliceOutOfRange => cases h; exact h2
    | fatal => cases h; exact h2
    | outOfFuel => cases h; exact h2

theorem noAbort_matchFirstN (b : Branch) (s : List Byte) (n : Int) :
    NoAbort (b.matchFirstN s n) := by
  unfold Branch.matchFirstN
  split_ifs
  · exact noAbort_bind _ _ (noAbort_index _ _) fun x =>
      noAbort_bind _ _ (noAbort_index _ _) fun y => noAbort_pure _
  · exact noAbort_eqBits64 _ _ _
  · exact noAbort_bind _ _ (noAbort_sliceTo _ _) fun x => noAbort_pure _

theorem noAbort_couldMatch (b : Branch) (s : List Byte) : NoAbort (b.couldMatch s) := by
  unfold Branch.couldMatch
  exact noAbort_matchFirstN _ _ _

theorem noAbort_matchPrefixFrom (b : Branch) (s : List Byte) : ∀ (l : List Int) (eq : Int),
    NoAbort (b.matchPrefixFrom s l eq) := by
  intro l
  induction l with
  | nil =>
    intro eq
    unfold Branch.matchPrefixFrom
    exact noAbort_bind _ _ (noAbort_matchFirstN _ _ _) fun r => noAbort_pure _
  | cons o rest ih =>
    intro eq
    unfold Branch.matchPrefixFrom
    refine noAbort_bind _ _ (noAbort_matchFirstN _ _ _) fun r => ?_
    split_ifs
    · exact noAbort_pure _
    · exact ih _

theorem noAbort_matchPrefix (b : Branch) (s : List Byte) : NoAbort (b.matchPrefix s) :=
  noAbort_matchPrefixFrom b s _ _

mutual
/-- The descent never stops with the fatal error or for lack of steps: `match`
is a recursion on the tree. -/
theorem noAbort_match : ∀ (b : Branch) (offset : Int) (s : List Byte),
    NoAbort (b.match offset s)
  | Branch.mk _ sub _ _ _, offset, s => by
    simp only [Branch.match]
    split_ifs
    · exact noAbort_pure _
    · exact noAbort_matchSub sub offset s
theorem noAbort_matchSub : ∀ (m : List (Int × List Branch)) (offset : Int) (s : List Byte),
    NoAbort (matchSub m offset s)
  | [], _, _ => by
    simp only [matchSub]
    exact noAbort_pure _
  | (k, l) :: rest, offset, s => by
    simp only [matchSub]
    split_ifs
    · exact noAbort_matchLoop l offset s (-1)
    · exact noAbort_matchSub rest offset s
theorem noAbort_matchLoop : ∀ (l : List Branch) (offset : Int) (s : List Byte) (min : Int),
    NoAbort (matchLoop l offset s min)
  | [], _, _, _ => by
    simp only [matchLoop]
    exact noAbort_pure _
  | sb :: rest, offset, s, min => by
    simp only [matchLoop]
    by_cases hv : sb.val = []
    · rw [if_pos hv]; exact noAbort_pure _
    · rw [if_neg hv]
      refine noAbort_bind _ _ (noAbort_couldMatch _ _) fun could => ?_
      by_cases hc : could = true
      · rw [if_pos hc]
        refine noAbort_bind _ _ (noAbort_matchPrefix _ _) fun m => ?_
        by_cases hm : m = len sb.val
        · rw [if_pos hm]; exact noAbort_pure _
        · rw [if_neg hm]
          by_cases hm1 : m ≠ -1
          · rw [if_pos hm1]
            refine noAbort_bind _ _ (noAbort_sliceFrom _ _) fun tail => ?_
            refine noAbort_bind _ _ (noAbort_match sb m tail) fun r => ?_
            by_cases hr : r.2 = true
            · rw [if_pos hr]; exact noAbort_pure _
            · rw [if_neg hr]; exact noAbort_matchLoop rest offset s _
          · rw [if_neg hm1]; exact noAbort_matchLoop rest offset s _
      · rw [if_neg hc]; exact noAbort_matchLoop rest offset s _
end

/-! ## The advance of a failed descent -/

/-- The read `b.sub[offset]` that `matchSub` makes while it walks the map is the
map read `mapGet`. -/
theorem matchSub_eq_mapGet : ∀ (m : List (Int × List Branch)) (offset : Int) (s : List Byte),
    matchSub m offset s = matchLoop (mapGet m offset) offset s (-1) := by
  intro m
  induction m with
  | nil => intro offset s; simp only [matchSub, mapGet, matchLoop]
  | cons e rest ih =>
    intro offset s
    obtain ⟨k, l⟩ := e
    simp only [matchSub, mapGet]
    split_ifs
    · rfl
    · exact ih offset s

theorem pure_found_ne (x n : Int) :
    (pure (x, true) : Run (Int × Bool)) ≠ Except.ok (n, false) := by
  intro h
  have h2 := congrArg Prod.snd (Except.ok.inj h)
  simp at h2

/-- A loop of `match` that ends not-found has passed every child: each has a
non-empty value, and the loop went on with the lowered `min`. -/
theorem matchLoop_cons_not_found (sb : Branch) (rest : List Branch) (offset : Int)
    (s : List Byte) (min n : Int)
    (h : matchLoop (sb :: rest) offset s min = Except.ok (n, false)) :
    sb.val ≠ [] ∧
      matchLoop rest offset s (if min = -1 ∨ sb.offset < min then sb.offset else min)
        = Except.ok (n, false) := by
  simp only [matchLoop] at h
  by_cases hv : sb.val = []
  · rw [if_pos hv] at h
    exact absurd h (pure_found_ne _ _)
  · rw [if_neg hv] at h
    refine ⟨hv, ?_⟩
    obtain ⟨could, _, h⟩ := bind_eq_ok _ _ _ h
    by_cases hc : could = true
    · rw [if_pos hc] at h
      obtain ⟨m, _, h⟩ := bind_eq_ok _ _ _ h
      by_cases hm : m = len sb.val
      · rw [if_pos hm] at h
        exact absurd h (pure_found_ne _ _)
      · rw [if_neg hm] at h
        by_cases hm1 : m ≠ -1
        · rw [if_pos hm1] at h
          obtain ⟨tail, _, h⟩ := bind_eq_ok _ _ _ h
          obtain ⟨r, _, h⟩ := bind_eq_ok _ _ _ h
          by_cases hr : r.2 = true
          · rw [if_pos hr] at h
            exact absurd h (pure_found_ne _ _)
          · rw [if_neg hr] at h; exact h
        · rw [if_neg hm1] at h; exact h
    · rw [if_neg hc] at h; exact h

/-- The advance of a loop that ends not-found is at least 1 when every child
with a non-empty value has a cached offset of at least 1, unless no child was
there and the initial `min` comes back. -/
theorem matchLoop_advance : ∀ (l : List Branch) (offset : Int) (s : List Byte) (min n : Int),
    (∀ c ∈ l, c.val ≠ [] → 1 ≤ c.offset) → (min = -1 ∨ 1 ≤ min) →
    matchLoop l offset s min = Except.ok (n, false) → (l = [] ∧ n = min) ∨ 1 ≤ n := by
  intro l
  induction l with
  | nil =>
    intro offset s min n _ _ h
    simp only [matchLoop] at h
    left
    exact ⟨rfl, (congrArg Prod.fst (Except.ok.inj h)).symm⟩
  | cons sb rest ih =>
    intro offset s min n hoff hmin h
    obtain ⟨hv, h2⟩ := matchLoop_cons_not_found sb rest offset s min n h
    have hsb : 1 ≤ sb.offset := hoff sb (by simp) hv
    have hmin2 : 1 ≤ (if min = -1 ∨ sb.offset < min then sb.offset else min) := by
      split_ifs with h3
      · exact hsb
      · omega
    rcases ih offset s _ n (fun c hc => hoff c (by simp [hc])) (Or.inr hmin2) h2 with h3 | h3
    · right; rw [h3.2]; exact hmin2
    · right; exact h3

/-- A failed descent from a node whose children under the key are there and
have cached offsets of at least 1 returns an advance of at least 1. -/
theorem match_advance (b : Branch) (offset : Int) (s : List Byte) (n : Int)
    (hne : mapGet b.sub offset ≠ [])
    (hoff : ∀ c ∈ mapGet b.sub offset, c.val ≠ [] → 1 ≤ c.offset)
    (h : b.match offset s = Except.ok (n, false)) : 1 ≤ n := by
  obtain ⟨val, sub, offsets, boffset, offsetv⟩ := b
  simp only [Branch.sub_mk] at hne hoff
  simp only [Branch.match] at h
  by_cases hs : s = []
  · rw [if_pos hs] at h
    exact absurd h (pure_found_ne _ _)
  · rw [if_neg hs, matchSub_eq_mapGet] at h
    rcases matchLoop_advance _ offset s (-1) n hoff (Or.inl rfl) h with h3 | h3
    · exact absurd h3.1 hne
    · exact h3

theorem append_key_nonempty (fuel : Nat) (b : Branch) (offset : Int) (p : List Byte)
    (b1 : Branch) (h : b.append fuel offset p = Except.ok b1) : mapGet b1.sub offset ≠ [] := by
  cases fuel with
  | zero =>
    simp only [Branch.append] at h
    exact absurd h (by intro h2; cases h2)
  | succ fuel =>
    obtain ⟨val, sub, offsets, boffset, offsetv⟩ := b
    rcases append_cases fuel val sub offsets boffset offsetv offset p b1 h with
      ⟨_, hb1⟩ | ⟨mb, maxj, _, hget, _, hcase⟩
    · subst hb1
      simp only [Branch.sub_mk, mapGet_mapSet_same]
      simp
    · have hlt : maxj < (mapGet sub offset).length := (List.getElem?_eq_some_iff.mp hget).1
      have hne : ∀ x : Branch, (mapGet sub offset).set maxj x ≠ [] := by
        intro x hx
        have := congrArg List.length hx
        simp only [List.length_set, List.length_nil] at this
        omega
      rcases hcase with ⟨_, hb1⟩ | ⟨_, g, _, hb1⟩
      · subst hb1
        simp only [Branch.sub_mk, mapGet_mapSet_same]
        exact hne _
      · subst hb1
        simp only [Branch.sub_mk, mapGet_mapSet_same]
        exact hne _

theorem insertAll_key_nonempty : ∀ (patterns : List (List Byte)) (root r : Branch),
    patterns ≠ [] → insertAll root patterns = Except.ok r → mapGet r.sub 0 ≠ [] := by
  intro patterns
  induction patterns with
  | nil => intro root r h; exact absurd rfl h
  | cons p rest ih =>
    intro root r _ h
    rw [insertAll] at h
    obtain ⟨r1, h1, h2⟩ := bind_eq_ok _ _ _ h
    by_cases hrest : rest = []
    · subst hrest
      simp only [insertAll] at h2
      rw [← Except.ok.inj h2]
      exact append_key_nonempty _ _ _ _ _ h1
    · exact ih r1 r hrest h2

theorem forall₂_mapGet : ∀ {m m1 : List (Int × List Branch)} (key : Int),
    List.Forall₂ (fun kl kl1 => kl1.1 = kl.1 ∧ finalizeList kl.2 = Except.ok kl1.2) m m1 →
    List.Forall₂ (fun c c1 => c.finalize = Except.ok c1) (mapGet m key) (mapGet m1 key) := by
  intro m m1 key h
  induction h with
  | nil => exact List.Forall₂.nil
  | @cons kl kl1 _ _ hab _ ih =>
    obtain ⟨k, l⟩ := kl
    obtain ⟨k1, l1⟩ := kl1
    simp only at hab
    obtain ⟨hk, hl⟩ := hab
    subst hk
    simp only [mapGet]
    split_ifs
    · exact finalizeList_forall₂ _ _ hl
    · exact ih

theorem forall₂_nonempty {α β : Type} {R : α → β → Prop} {l : List α} {l1 : List β}
    (h : List.Forall₂ R l l1) (hne : l ≠ []) : l1 ≠ [] := by
  cases h with
  | nil => exact absurd rfl hne
  | cons _ _ => simp

theorem finalize_val_offset (c c1 : Branch) (h : c.finalize = Except.ok c1) :
    c1.val = c.val ∧ c1.offset = c.offset := by
  obtain ⟨val, sub, offsets, offset, offsetv⟩ := c
  obtain ⟨sub1, w, _, hb1, _, _⟩ := finalize_cases val sub offsets offset offsetv c1 h
  subst hb1
  exact ⟨rfl, rfl⟩

/-- In the trie that `New` builds from at least one pattern the root has
children under the key 0, and each of them with a non-empty value has a cached
offset of at least 1. -/
theorem New_root_children (patterns : List (List Byte)) (hne : patterns ≠ []) :
    ∃ t, New patterns = Except.ok t ∧ mapGet t.root.sub 0 ≠ [] ∧
      ∀ c ∈ mapGet t.root.sub 0, c.val ≠ [] → 1 ≤ c.offset := by
  obtain ⟨root, h1, _, hall⟩ :=
    insertAll_ok patterns (Branch.mk [] [] [] 0 0) rfl allNodes_emptyRoot
  obtain ⟨t, h2⟩ := finalize_ok root hall
  have hnew : New patterns = Except.ok ⟨t⟩ := by
    unfold New; rw [h1]; show (root.finalize >>= _) = _; rw [h2]; rfl
  have hkey := insertAll_key_nonempty patterns _ root hne h1
  obtain ⟨val, sub, offsets, offset, offsetv⟩ := root
  obtain ⟨sub1, w, hsub, hb1, _, _⟩ := finalize_cases val sub offsets offset offsetv t h2
  subst hb1
  have hf := forall₂_mapGet 0 (finalizeSub_forall₂ sub sub1 hsub)
  simp only [Branch.sub_mk] at hkey
  refine ⟨_, hnew, ?_, ?_⟩
  · simp only [Branch.sub_mk]
    exact forall₂_nonempty hf hkey
  · intro c1 hc1 hv
    simp only [Branch.sub_mk] at hc1
    obtain ⟨c, hc, hfin⟩ := forall₂_mem_right hf c1 hc1
    obtain ⟨hval, hoff⟩ := finalize_val_offset c c1 hfin
    have hc2 : OffsetInRange c := (hall.of_mapGet 0 c (by simpa using hc)).here_of
    rw [hoff]
    exact (hc2 (by rw [← hval]; exact hv)).1

theorem bind_eq_error {α β : Type} (r : Run α) (f : α → Run β) (e : Err)
    (h : (r >>= f) = Except.error e) :
    r = Except.error e ∨ ∃ a, r = Except.ok a ∧ f a = Except.error e := by
  cases r with
  | error e2 =>
    left
    have h2 : (Except.error e2 : Run β) = Except.error e := h
    cases h2; rfl
  | ok a => right; exact ⟨a, rfl, h⟩

/-- The loop of `Match` neither aborts nor runs out of steps when every failed
descent from the root advances by at least 1. -/
theorem matchFrom_noAbort (t : Trie) (s : List Byte)
    (hadv : ∀ tail n, t.root.match 0 tail = Except.ok (n, false) → 1 ≤ n) :
    ∀ (fuel : Nat) (pos : Int), 1 ≤ fuel → len s ≤ pos + fuel →
      NoAbort (t.matchFrom s fuel pos) := by
  intro fuel
  induction fuel with
  | zero => intro pos h; omega
  | succ fuel ih =>
    intro pos _ hlen
    unfold Trie.matchFrom
    by_cases hpos : pos < len s - 1
    · rw [if_pos hpos]
      refine noAbort_bind _ _ (noAbort_sliceFrom _ _) fun tail => ?_
      intro e he
      rcases bind_eq_error _ _ _ he with h1 | ⟨r, h1, h2⟩
      · exact noAbort_match _ _ _ e h1
      · by_cases hr : r.2 = true
        · rw [if_pos hr] at h2
          exact noAbort_bind _ _ (noAbort_slice _ _ _) (fun m => noAbort_pure _) e h2
        · rw [if_neg hr] at h2
          have hr2 : r = (r.1, false) := by
            cases r with
            | mk a b => simp only [Bool.not_eq_true] at hr; simp [hr]
          have hn : 1 ≤ r.1 := hadv tail r.1 (by rw [h1, ← hr2])
          rw [if_neg (by omega)] at h2
          have hcast : ((fuel + 1 : Nat) : Int) = (fuel : Int) + 1 := by simp
          exact ih (pos + r.1) (by omega) (by omega) e h2
    · rw [if_neg hpos]
      exact noAbort_pure _

/-- The advance of a failed descent in the model that stops where a load is not
determined by the text: for a non-empty pattern list every descent from the
root that the model finishes with not-found returns an advance of at least 1,
and the scan stops neither on the fatal error nor for lack of steps.  Runs that
this model leaves open are covered by `scanMem`, for every memory content. -/
theorem determined_descent_advances (patterns : List (List Byte)) (text : List Byte)
    (hne : patterns ≠ []) :
    (∃ t, New patterns = Except.ok t ∧ mapGet t.root.sub 0 ≠ [] ∧
      ∀ c ∈ mapGet t.root.sub 0, c.val ≠ [] → 1 ≤ c.offset) ∧
    (∀ pos n, rootDescent patterns text pos = Except.ok (n, false) → 1 ≤ n) ∧
    scan patterns text ≠ Except.error Err.fatal ∧
    scan patterns text ≠ Except.error Err.outOfFuel := by
  obtain ⟨t, hnew, hkey, hoff⟩ := New_root_children patterns hne
  have hadv : ∀ tail n, t.root.match 0 tail = Except.ok (n, false) → 1 ≤ n :=
    fun tail n h => match_advance t.root 0 tail n hkey hoff h
  have hscan : NoAbort (scan patterns text) := by
    unfold scan
    rw [hnew]
    exact matchFrom_noAbort t text hadv (text.length + 1) 0 (by omega)
      (by simp only [len]; omega)
  refine ⟨⟨t, hnew, hkey, hoff⟩, ?_, fun h => (hscan _ h).1 rfl, fun h => (hscan _ h).2 rfl⟩
  intro pos n h
  unfold rootDescent at h
  rw [hnew] at h
  obtain ⟨tail, _, h2⟩ := bind_eq_ok _ _ _ (show (sliceFrom text pos >>= fun tail =>
    t.root.match 0 tail) = _ from h)
  exact hadv tail n h2

/-- The pattern `aab` and the text `aaabx` in the model that stops where a load
is not determined by the text. -/
theorem determined_descent_advances_aab :
    [str "aab"] ≠ [] ∧
    ((∃ t, New [str "aab"] = Except.ok t ∧ mapGet t.root.sub 0 ≠ [] ∧
      ∀ c ∈ mapGet t.root.sub 0, c.val ≠ [] → 1 ≤ c.offset) ∧
    (∀ pos n, rootDescent [str "aab"] (str "aaabx") pos = Except.ok (n, false) → 1 ≤ n) ∧
    scan [str "aab"] (str "aaabx") ≠ Except.error Err.fatal ∧
    scan [str "aab"] (str "aaabx") ≠ Except.error Err.outOfFuel) :=
  ⟨by decide, determined_descent_advances [str "aab"] (str "aaabx") (by decide)⟩


/-! ## The scan with the memory after the text: only bounds panics, positive advance -/

theorem boundsOnly_ok {α : Type} (a : α) : BoundsOnly (Except.ok a : Run α) := by
  intro e h; cases h

theorem boundsOnly_pure {α : Type} (a : α) : BoundsOnly (pure a : Run α) := boundsOnly_ok a

theorem boundsOnly_bind {α β : Type} (r : Run α) (f : α → Run β) (hr : BoundsOnly r)
    (hf : ∀ a, BoundsOnly (f a)) : BoundsOnly (r >>= f) := by
  cases r with
  | error e =>
    intro e2 h
    have : e = e2 := by cases h; rfl
    exact this ▸ hr e rfl
  | ok a => exact hf a

theorem boundsOnly_noAbort {α : Type} (r : Run α) (h : BoundsOnly r) : NoAbort r := by
  intro e he
  rcases h e he with h2 | h2 <;> rw [h2] <;> exact ⟨by decide, by decide⟩

theorem boundsOnly_index (s : List Byte) (i : Int) : BoundsOnly (index s i) := by
  intro e h
  unfold index at h
  split_ifs at h
  · split at h
    · cases h
    · cases h; exact Or.inl rfl
  · cases h; exact Or.inl rfl

theorem boundsOnly_sliceFrom (s : List Byte) (lo : Int) : BoundsOnly (sliceFrom s lo) := by
  intro e h
  unfold sliceFrom at h
  split_ifs at h
  · cases h
  · cases h; exact Or.inr rfl

theorem boundsOnly_sliceTo (s : List Byte) (hi : Int) : BoundsOnly (sliceTo s hi) := by
  intro e h
  unfold sliceTo at h
  split_ifs at h
  · cases h
  · cases h; exact Or.inr rfl

theorem boundsOnly_slice (s : List Byte) (lo hi : Int) : BoundsOnly (slice s lo hi) := by
  intro e h
  unfold slice at h
  split_ifs at h
  · cases h
  · cases h; exact Or.inr rfl

theorem boundsOnly_bits64Mem (a : List Byte) (after : Nat → Byte) (n : Int) :
    BoundsOnly (bits64Mem a after n) := by
  intro e h
  unfold bits64Mem at h
  simp only at h
  split_ifs at h <;> first | (cases h; done) | (cases h; exact Or.inl rfl)

theorem boundsOnly_matchFirstNMem (b : Branch) (s : List Byte) (after : Nat → Byte) (n : Int) :
    BoundsOnly (b.matchFirstNMem s after n) := by
  unfold Branch.matchFirstNMem
  split_ifs
  · exact boundsOnly_bind _ _ (boundsOnly_index _ _) fun x =>
      boundsOnly_bind _ _ (boundsOnly_index _ _) fun y => boundsOnly_pure _
  · exact boundsOnly_bind _ _ (boundsOnly_bits64Mem _ _ _) fun w => boundsOnly_pure _
  · exact boundsOnly_bind _ _ (boundsOnly_sliceTo _ _) fun x => boundsOnly_pure _

theorem boundsOnly_couldMatchMem (b : Branch) (s : List Byte) (after : Nat → Byte) :
    BoundsOnly (b.couldMatchMem s after) := by
  unfold Branch.couldMatchMem
  exact boundsOnly_matchFirstNMem _ _ _ _

theorem boundsOnly_matchPrefixFromMem (b : Branch) (s : List Byte) (after : Nat → Byte) :
    ∀ (l : List Int) (eq : Int), BoundsOnly (b.matchPrefixFromMem s after l eq) := by
  intro l
  induction l with
  | nil =>
    intro eq
    unfold Branch.matchPrefixFromMem
    exact boundsOnly_bind _ _ (boundsOnly_matchFirstNMem _ _ _ _) fun r => boundsOnly_pure _
  | cons o rest ih =>
    intro eq
    unfold Branch.matchPrefixFromMem
    refine boundsOnly_bind _ _ (boundsOnly_matchFirstNMem _ _ _ _) fun r => ?_
    split_ifs
    · exact boundsOnly_pure _
    · exact ih _

theorem boundsOnly_matchPrefixMem (b : Branch) (s : List Byte) (after : Nat → Byte) :
    BoundsOnly (b.matchPrefixMem s after) :=
  boundsOnly_matchPrefixFromMem b s after _ _

mutual
/-- With the memory after the text given, the descent stops only on a Go panic
of an index or a slice. -/
theorem boundsOnly_matchMem : ∀ (b : Branch) (offset : Int) (s : List Byte) (after : Nat → Byte),
    BoundsOnly (b.matchMem offset s after)
  | Branch.mk _ sub _ _ _, offset, s, after => by
    simp only [Branch.matchMem]
    split_ifs
    · exact boundsOnly_pure _
    · exact boundsOnly_matchSubMem sub offset s after
theorem boundsOnly_matchSubMem : ∀ (m : List (Int × List Branch)) (offset : Int) (s : List Byte)
    (after : Nat → Byte), BoundsOnly (matchSubMem m offset s after)
  | [], _, _, _ => by
    simp only [matchSubMem]
    exact boundsOnly_pure _
  | (k, l) :: rest, offset, s, after => by
    simp only [matchSubMem]
    split_ifs
    · exact boundsOnly_matchLoopMem l offset s after (-1)
    · exact boundsOnly_matchSubMem rest offset s after
theorem boundsOnly_matchLoopMem : ∀ (l : List Branch) (offset : Int) (s : List Byte)
    (after : Nat → Byte) (min : Int), BoundsOnly (matchLoopMem l offset s after min)
  | [], _, _, _, _ => by
    simp only [matchLoopMem]
    exact boundsOnly_pure _
  | sb :: rest, offset, s, after, min => by
    simp only [matchLoopMem]
    by_cases hv : sb.val = []
    · rw [if_pos hv]; exact boundsOnly_pure _
    · rw [if_neg hv]
      refine boundsOnly_bind _ _ (boundsOnly_couldMatchMem _ _ _) fun could => ?_
      by_cases hc : could = true
      · rw [if_pos hc]
        refine boundsOnly_bind _ _ (boundsOnly_matchPrefixMem _ _ _) fun m => ?_
        by_cases hm : m = len sb.val
        · rw [if_pos hm]; exact boundsOnly_pure _
        · rw [if_neg hm]
          by_cases hm1 : m ≠ -1
          · rw [if_pos hm1]
            refine boundsOnly_bind _ _ (boundsOnly_sliceFrom _ _) fun tail => ?_
            refine boundsOnly_bind _ _ (boundsOnly_matchMem sb m tail after) fun r => ?_
            by_cases hr : r.2 = true
            · rw [if_pos hr]; exact boundsOnly_pure _
            · rw [if_neg hr]; exact boundsOnly_matchLoopMem rest offset s after _
          · rw [if_neg hm1]; exact boundsOnly_matchLoopMem rest offset s after _
      · rw [if_neg hc]; exact boundsOnly_matchLoopMem rest offset s after _
end

theorem matchSubMem_eq_mapGet : ∀ (m : List (Int × List Branch)) (offset : Int)
    (s : List Byte) (after : Nat → Byte),
    matchSubMem m offset s after = matchLoopMem (mapGet m offset) offset s after (-1) := by
  intro m
  induction m with
  | nil => intro offset s after; simp only [matchSubMem, mapGet, matchLoopMem]
  | cons e rest ih =>
    intro offset s after
    obtain ⟨k, l⟩ := e
    simp only [matchSubMem, mapGet]
    split_ifs
    · rfl
    · exact ih offset s after

/-- A loop of `match` that ends not-found has passed every child: each has a
non-empty value, and the loop went on with the lowered `min`. -/
theorem matchLoopMem_cons_not_found (sb : Branch) (rest : List Branch) (offset : Int)
    (s : List Byte) (after : Nat → Byte) (min n : Int)
    (h : matchLoopMem (sb :: rest) offset s after min = Except.ok (n, false)) :
    sb.val ≠ [] ∧
      matchLoopMem rest offset s after (if min = -1 ∨ sb.offset < min then sb.offset else min)
        = Except.ok (n, false) := by
  simp only [matchLoopMem] at h
  by_cases hv : sb.val = []
  · rw [if_pos hv] at h
    exact absurd h (pure_found_ne _ _)
  · rw [if_neg hv] at h
    refine ⟨hv, ?_⟩
    obtain ⟨could, _, h⟩ := bind_eq_ok _ _ _ h
    by_cases hc : could = true
    · rw [if_pos hc] at h
      obtain ⟨m, _, h⟩ := bind_eq_ok _ _ _ h
      by_cases hm : m = len sb.val
      · rw [if_pos hm] at h
        exact absurd h (pure_found_ne _ _)
      · rw [if_neg hm] at h
        by_cases hm1 : m ≠ -1
        · rw [if_pos hm1] at h
          obtain ⟨tail, _, h⟩ := bind_eq_ok _ _ _ h
          obtain ⟨r, _, h⟩ := bind_eq_ok _ _ _ h
          by_cases hr : r.2 = true
          · rw [if_pos hr] at h
            exact absurd h (pure_found_ne _ _)
          · rw [if_neg hr] at h; exact h
        · rw [if_neg hm1] at h; exact h
    · rw [if_neg hc] at h; exact h

theorem matchLoopMem_advance : ∀ (l : List Branch) (offset : Int) (s : List Byte)
    (after : Nat → Byte) (min n : Int),
    (∀ c ∈ l, c.val ≠ [] → 1 ≤ c.offset) → (min = -1 ∨ 1 ≤ min) →
    matchLoopMem l offset s after min = Except.ok (n, false) → (l = [] ∧ n = min) ∨ 1 ≤ n := by
  intro l
  induction l with
  | nil =>
    intro offset s after min n _ _ h
    simp only [matchLoopMem] at h
    left
    exact ⟨rfl, (congrArg Prod.fst (Except.ok.inj h)).symm⟩
  | cons sb rest ih =>
    intro offset s after min n hoff hmin h
    obtain ⟨hv, h2⟩ := matchLoopMem_cons_not_found sb rest offset s after min n h
    have hsb : 1 ≤ sb.offset := hoff sb (by simp) hv
    have hmin2 : 1 ≤ (if min = -1 ∨ sb.offset < min then sb.offset else min) := by
      split_ifs with h3
      · exact hsb
      · omega
    rcases ih offset s after _ n (fun c hc => hoff c (by simp [hc])) (Or.inr hmin2) h2 with
      h3 | h3
    · right; rw [h3.2]; exact hmin2
    · right; exact h3

/-- Whatever follows the text in memory, a failed descent from a node whose
children under the key are there and have cached offsets of at least 1 returns
an advance of at least 1. -/
theorem matchMem_advance (b : Branch) (offset : Int) (s : List Byte) (after : Nat → Byte)
    (n : Int) (hne : mapGet b.sub offset ≠ [])
    (hoff : ∀ c ∈ mapGet b.sub offset, c.val ≠ [] → 1 ≤ c.offset)
    (h : b.matchMem offset s after = Except.ok (n, false)) : 1 ≤ n := by
  obtain ⟨val, sub, offsets, boffset, offsetv⟩ := b
  simp only [Branch.sub_mk] at hne hoff
  simp only [Branch.matchMem] at h
  by_cases hs : s = []
  · rw [if_pos hs] at h
    exact absurd h (pure_found_ne _ _)
  · rw [if_neg hs, matchSubMem_eq_mapGet] at h
    rcases matchLoopMem_advance _ offset s after (-1) n hoff (Or.inl rfl) h with h3 | h3
    · exact absurd h3.1 hne
    · exact h3

/-- Whatever follows the text in memory, the loop of `Match` stops only on a Go panic of an
index or a slice (never on the fatal branch, never for lack of steps) when every failed descent from the root
advances by at least 1. -/
theorem matchFromMem_boundsOnly (t : Trie) (s : List Byte) (after : Nat → Byte)
    (hadv : ∀ tail n, t.root.matchMem 0 tail after = Except.ok (n, false) → 1 ≤ n) :
    ∀ (fuel : Nat) (pos : Int), 1 ≤ fuel → len s ≤ pos + fuel →
      BoundsOnly (t.matchFromMem s after fuel pos) := by
  intro fuel
  induction fuel with
  | zero => intro pos h; omega
  | succ fuel ih =>
    intro pos _ hlen
    unfold Trie.matchFromMem
    by_cases hpos : pos < len s - 1
    · rw [if_pos hpos]
      refine boundsOnly_bind _ _ (boundsOnly_sliceFrom _ _) fun tail => ?_
      intro e he
      rcases bind_eq_error _ _ _ he with h1 | ⟨r, h1, h2⟩
      · exact boundsOnly_matchMem _ _ _ _ e h1
      · by_cases hr : r.2 = true
        · rw [if_pos hr] at h2
          exact boundsOnly_bind _ _ (boundsOnly_slice _ _ _) (fun m => boundsOnly_pure _) e h2
        · rw [if_neg hr] at h2
          have hr2 : r = (r.1, false) := by
            cases r with
            | mk a b => simp only [Bool.not_eq_true] at hr; simp [hr]
          have hn : 1 ≤ r.1 := hadv tail r.1 (by rw [h1, ← hr2])
          rw [if_neg (by omega)] at h2
          exact ih (pos + r.1) (by omega) (by omega) e h2
    · rw [if_neg hpos]
      exact boundsOnly_pure _

/-! ## The two models of the scan agree

Where the model that stops on an undetermined load returns or panics, the scan
with the memory after the text given has the same outcome, whatever that memory
holds. -/

theorem agrees_refl {α : Type} (r : Run α) : Agrees r r := fun _ => rfl

theorem agrees_bind {α β : Type} (r1 r2 : Run α) (f1 f2 : α → Run β) (hr : Agrees r1 r2)
    (hf : ∀ a, Agrees (f1 a) (f2 a)) : Agrees (r1 >>= f1) (r2 >>= f2) := by
  intro h
  cases r1 with
  | error e =>
    have he : e ≠ Err.readPastEnd := by
      intro h2
      rw [h2] at h
      exact h rfl
    rw [hr (by intro h2; cases h2; exact he rfl)]
    rfl
  | ok a =>
    rw [hr (by intro h2; cases h2)]
    exact hf a h

theorem load8_length (a : List Byte) (after : Nat → Byte) : (load8 a after).length = 8 := by
  simp [load8]

theorem load8_take (a : List Byte) (after : Nat → Byte) (k : Nat) (h8 : k ≤ 8)
    (ha : k ≤ a.length) : (load8 a after).take k = a.take k := by
  unfold load8
  rw [List.take_take, show min k 8 = k by omega, List.take_append_of_le_length ha]

theorem bits64_cases (a : List Byte) (n : Int) :
    (n ≤ 0 ∧ bits64 a n = Except.error Err.indexOutOfRange) ∨
    (1 ≤ n ∧ (min n 8).toNat ≤ a.length ∧
      bits64 a n = Except.ok (leWord (a.take (min n 8).toNat))) ∨
    (1 ≤ n ∧ a.length < (min n 8).toNat ∧ bits64 a n = Except.error Err.readPastEnd) := by
  by_cases h0 : n ≤ 0
  · left
    refine ⟨h0, ?_⟩
    unfold bits64
    have h1 : n < 8 := by omega
    have h2 : ¬ (0 ≤ 8 - n ∧ 8 - n < 8) := by omega
    simp only [h1, h2, if_true, if_false]
    rfl
  · right
    by_cases h8 : n < 8
    · have hmin : min n 8 = n := by omega
      rw [hmin]
      by_cases hl : n.toNat ≤ a.length
      · left
        refine ⟨by omega, hl, ?_⟩
        have := bits64_eq_leWord a n.toNat (by omega) (by omega) hl
        rwa [show ((n.toNat : Nat) : Int) = n by omega] at this
      · right
        refine ⟨by omega, by omega, ?_⟩
        unfold bits64
        have h2 : 0 ≤ 8 - n ∧ 8 - n < 8 := by omega
        have h3 : ¬ n ≤ len a := by simp only [len]; omega
        simp only [h8, h2, h3, and_self, if_true, if_false]
        rfl
    · have hmin : min n 8 = 8 := by omega
      rw [hmin]
      by_cases hl : 8 ≤ a.length
      · left
        refine ⟨by omega, hl, ?_⟩
        unfold bits64
        have h3 : (8 : Int) ≤ len a := by simp only [len]; omega
        simp only [h8, h3, if_true, if_false]
        rfl
      · right
        refine ⟨by omega, by simpa using hl, ?_⟩
        unfold bits64
        have h3 : ¬ (8 : Int) ≤ len a := by simp only [len]; omega
        simp only [h8, h3, if_false]
        rfl

/-- The word that the load gives with the memory after the string given: the
first `min n 8` of the eight loaded bytes, read little-endian. -/
theorem bits64Mem_cases (a : List Byte) (after : Nat → Byte) (n : Int) :
    (n ≤ 0 ∧ bits64Mem a after n = Except.error Err.indexOutOfRange) ∨
    (1 ≤ n ∧ bits64Mem a after n
      = Except.ok (leWord ((load8 a after).take (min n 8).toNat))) := by
  by_cases h0 : n ≤ 0
  · left
    refine ⟨h0, ?_⟩
    unfold bits64Mem
    have h1 : n < 8 := by omega
    have h2 : ¬ (0 ≤ 8 - n ∧ 8 - n < 8) := by omega
    simp only [h1, h2, if_true, if_false]
    rfl
  · right
    refine ⟨by omega, ?_⟩
    unfold bits64Mem
    by_cases h8 : n < 8
    · have h2 : 0 ≤ 8 - n ∧ 8 - n < 8 := by omega
      have hmin : min n 8 = n := by omega
      simp only [h8, h2, and_self, if_true, hmin]
      have h5 : (8 - n).toNat = 8 - n.toNat := by omega
      rw [h5, bits_table (8 - n.toNat) (by omega)]
      have h6 : 8 * (8 - (8 - n.toNat)) = 8 * n.toNat := by omega
      rw [h6, Nat.and_pow_two_sub_one_eq_mod, pow_mul]
      have h7 : (2 : Nat) ^ 8 = 256 := by norm_num
      rw [h7, leWord_mod]
      rfl
    · have hmin : min n 8 = 8 := by omega
      simp only [h8, if_false, hmin]
      have h9 : (load8 a after).take (8 : Int).toNat = load8 a after := by
        rw [show (8 : Int).toNat = 8 by rfl]
        exact List.take_of_length_le (by rw [load8_length])
      rw [h9]
      rfl

/-- The comparison of the cached word with the loaded word: where the model
that stops on an undetermined load gives an answer, the load from any memory
gives the same answer. -/
theorem eqBits64_agrees (w : Nat) (s : List Byte) (after : Nat → Byte) (n : Int) :
    Agrees (eqBits64 w s n) (bits64Mem s after n >>= fun v => pure (w == v)) := by
  intro h
  rcases bits64_cases s n with ⟨h0, hb⟩ | ⟨h1, hl, hb⟩ | ⟨h1, hl, hb⟩
  · rcases bits64Mem_cases s after n with ⟨_, hm⟩ | ⟨h1, _⟩
    · unfold eqBits64
      rw [hb, hm]
      rfl
    · omega
  · rcases bits64Mem_cases s after n with ⟨h0, _⟩ | ⟨_, hm⟩
    · omega
    · unfold eqBits64
      have h8 : (min n 8).toNat ≤ 8 := by omega
      rw [hb, hm, load8_take s after _ h8 hl]
      rfl
  · rcases bits64Mem_cases s after n with ⟨h0, _⟩ | ⟨_, hm⟩
    · omega
    · unfold eqBits64 at h ⊢
      rw [hb] at h ⊢
      simp only at h ⊢
      by_cases hw : w % 256 ^ s.length = leWord s
      · rw [if_pos hw] at h
        exact absurd rfl h
      · rw [if_neg hw, hm]
        have hne : w ≠ leWord ((load8 s after).take (min n 8).toNat) := by
          intro heq
          apply hw
          rw [heq, leWord_mod, List.take_take, show min s.length (min n 8).toNat = s.length by omega,
            load8_take s after s.length (by omega) (le_refl _), List.take_length]
        have hb2 : (w == leWord ((load8 s after).take (min n 8).toNat)) = false := by
          simpa using hne
        show (Except.ok (w == leWord ((load8 s after).take (min n 8).toNat)) : Run Bool) = _
        rw [hb2]
        rfl

theorem matchFirstN_agrees (b : Branch) (s : List Byte) (after : Nat → Byte) (n : Int) :
    Agrees (b.matchFirstN s n) (b.matchFirstNMem s after n) := by
  unfold Branch.matchFirstN Branch.matchFirstNMem
  by_cases h1 : n = 1
  · rw [if_pos h1, if_pos h1]
    exact agrees_refl _
  · rw [if_neg h1, if_neg h1]
    by_cases h8 : n ≤ 8
    · rw [if_pos h8, if_pos h8]
      exact eqBits64_agrees _ _ _ _
    · rw [if_neg h8, if_neg h8]
      exact agrees_refl _

theorem couldMatch_agrees (b : Branch) (s : List Byte) (after : Nat → Byte) :
    Agrees (b.couldMatch s) (b.couldMatchMem s after) := by
  unfold Branch.couldMatch Branch.couldMatchMem
  exact matchFirstN_agrees _ _ _ _

theorem matchPrefixFrom_agrees (b : Branch) (s : List Byte) (after : Nat → Byte) :
    ∀ (l : List Int) (eq : Int),
      Agrees (b.matchPrefixFrom s l eq) (b.matchPrefixFromMem s after l eq) := by
  intro l
  induction l with
  | nil =>
    intro eq
    unfold Branch.matchPrefixFrom Branch.matchPrefixFromMem
    exact agrees_bind _ _ _ _ (matchFirstN_agrees _ _ _ _) fun r => agrees_refl _
  | cons o rest ih =>
    intro eq
    unfold Branch.matchPrefixFrom Branch.matchPrefixFromMem
    refine agrees_bind _ _ _ _ (matchFirstN_agrees _ _ _ _) fun r => ?_
    by_cases hr : (!r) = true
    · rw [if_pos hr, if_pos hr]
      exact agrees_refl _
    · rw [if_neg hr, if_neg hr]
      exact ih _

theorem matchPrefix_agrees (b : Branch) (s : List Byte) (after : Nat → Byte) :
    Agrees (b.matchPrefix s) (b.matchPrefixMem s after) :=
  matchPrefixFrom_agrees b s after _ _

mutual
/-- Where the descent of the model that stops on an undetermined load returns or
panics, the descent on any memory has the same outcome. -/
theorem match_agrees : ∀ (b : Branch) (offset : Int) (s : List Byte) (after : Nat → Byte),
    Agrees (b.match offset s) (b.matchMem offset s after)
  | Branch.mk _ sub _ _ _, offset, s, after => by
    simp only [Branch.match, Branch.matchMem]
    by_cases hs : s = []
    · rw [if_pos hs, if_pos hs]
      exact agrees_refl _
    · rw [if_neg hs, if_neg hs]
      exact matchSub_agrees sub offset s after
theorem matchSub_agrees : ∀ (m : List (Int × List Branch)) (offset : Int) (s : List Byte)
    (after : Nat → Byte), Agrees (matchSub m offset s) (matchSubMem m offset s after)
  | [], _, _, _ => by
    simp only [matchSub, matchSubMem]
    exact agrees_refl _
  | (k, l) :: rest, offset, s, after => by
    simp only [matchSub, matchSubMem]
    by_cases hk : k = offset
    · rw [if_pos hk, if_pos hk]
      exact matchLoop_agrees l offset s after (-1)
    · rw [if_neg hk, if_neg hk]
      exact matchSub_agrees rest offset s after
theorem matchLoop_agrees : ∀ (l : List Branch) (offset : Int) (s : List Byte)
    (after : Nat → Byte) (min : Int),
    Agrees (matchLoop l offset s min) (matchLoopMem l offset s after min)
  | [], _, _, _, _ => by
    simp only [matchLoop, matchLoopMem]
    exact agrees_refl _
  | sb :: rest, offset, s, after, min => by
    simp only [matchLoop, matchLoopMem]
    by_cases hv : sb.val = []
    · rw [if_pos hv, if_pos hv]
      exact agrees_refl _
    · rw [if_neg hv, if_neg hv]
      refine agrees_bind _ _ _ _ (couldMatch_agrees _ _ _) fun could => ?_
      by_cases hc : could = true
      · rw [if_pos hc, if_pos hc]
        refine agrees_bind _ _ _ _ (matchPrefix_agrees _ _ _) fun m => ?_
        by_cases hm : m = len sb.val
        · rw [if_pos hm, if_pos hm]
          exact agrees_refl _
        · rw [if_neg hm, if_neg hm]
          by_cases hm1 : m ≠ -1
          · rw [if_pos hm1, if_pos hm1]
            refine agrees_bind _ _ _ _ (agrees_refl _) fun tail => ?_
            refine agrees_bind _ _ _ _ (match_agrees sb m tail after) fun r => ?_
            by_cases hr : r.2 = true
            · rw [if_pos hr, if_pos hr]
              exact agrees_refl _
            · rw [if_neg hr, if_neg hr]
              exact matchLoop_agrees rest offset s after _
          · rw [if_neg hm1, if_neg hm1]
            exact matchLoop_agrees rest offset s after _
      · rw [if_neg hc, if_neg hc]
        exact matchLoop_agrees rest offset s after _
end

theorem matchFrom_agrees (t : Trie) (s : List Byte) (after : Nat → Byte) :
    ∀ (fuel : Nat) (pos : Int),
      Agrees (t.matchFrom s fuel pos) (t.matchFromMem s after fuel pos) := by
  intro fuel
  induction fuel with
  | zero =>
    intro pos
    unfold Trie.matchFrom Trie.matchFromMem
    exact agrees_refl _
  | succ fuel ih =>
    intro pos
    unfold Trie.matchFrom Trie.matchFromMem
    by_cases hpos : pos < len s - 1
    · rw [if_pos hpos, if_pos hpos]
      refine agrees_bind _ _ _ _ (agrees_refl _) fun tail => ?_
      refine agrees_bind _ _ _ _ (match_agrees _ _ _ _) fun r => ?_
      by_cases hr : r.2 = true
      · rw [if_pos hr, if_pos hr]
        exact agrees_refl _
      · rw [if_neg hr, if_neg hr]
        by_cases hn : r.1 ≤ 0
        · rw [if_pos hn, if_pos hn]
          exact agrees_refl _
        · rw [if_neg hn, if_neg hn]
          exact ih _
    · rw [if_neg hpos, if_neg hpos]
      exact agrees_refl _

/-- Every outcome of `New(patterns...).Match(text)` that the model that stops on
an undetermined load computes (a result, or a panic of Go) is the outcome of the
scan for every content of the memory after the text. -/
theorem scanMem_eq_scan (patterns : List (List Byte)) (text : List Byte) (after : Nat → Byte)
    (h : scan patterns text ≠ Except.error Err.readPastEnd) :
    scanMem patterns text after = scan patterns text := by
  have hag : Agrees (scan patterns text) (scanMem patterns text after) := by
    unfold scan scanMem
    refine agrees_bind _ _ _ _ (agrees_refl _) fun t => ?_
    unfold Trie.Match Trie.MatchMem
    exact matchFrom_agrees _ _ _ _ _
  exact hag h

/-- The same for the descent from the root at a cursor position. -/
theorem rootDescentMem_eq_rootDescent (patterns : List (List Byte)) (text : List Byte)
    (after : Nat → Byte) (pos : Int)
    (h : rootDescent patterns text pos ≠ Except.error Err.readPastEnd) :
    rootDescentMem patterns text after pos = rootDescent patterns text pos := by
  have hag : Agrees (rootDescent patterns text pos) (rootDescentMem patterns text after pos) := by
    unfold rootDescent rootDescentMem
    refine agrees_bind _ _ _ _ (agrees_refl _) fun t => ?_
    exact agrees_bind _ _ _ _ (agrees_refl _) fun tail => match_agrees _ _ _ _
  exact hag h

set_option maxRecDepth 100000 in
/-- Two scans whose outcome is decided by the byte after the text.  In
`New("hello").Match("worldhell")` the descent at the cursor 5 compares `hello`
with `hell` and the byte that follows the text: with a zero byte there the scan
returns `("", false)`, with the byte `o` the node matches and `s[5:10]` panics.
`New("abc").Match("ab")` is the same at the cursor 0 with the byte `c`.  The
model that stops on an undetermined load stops in both. -/
theorem scan_decided_by_memory :
    scanMem [str "hello"] (str "worldhell") (fun _ => 0) = Except.ok ([], false) ∧
    scanMem [str "hello"] (str "worldhell") (fun _ => 111)
      = Except.error Err.sliceOutOfRange ∧
    scanMem [str "abc"] (str "ab") (fun _ => 0) = Except.ok ([], false) ∧
    scanMem [str "abc"] (str "ab") (fun _ => 99) = Except.error Err.sliceOutOfRange ∧
    scan [str "hello"] (str "worldhell") = Except.error Err.readPastEnd ∧
    scan [str "abc"] (str "ab") = Except.error Err.readPastEnd :=
  ⟨by decide, by decide, by decide, by decide, by decide, by decide⟩

/-! ## C20: a failed descent from the root advances -/

/-- C20.  For every non-empty pattern list, every text and every content of the
memory after the text: the root of the trie has children under the key 0 and
each of them with a non-empty value has a cached offset of at least 1; every
descent from the root, at any cursor position, that returns not-found returns an
advance of at least 1; the scan never takes the `panic("trie fatal error")`
branch; the cursor of `Match` strictly increases, so that the loop ends within
`len(s) + 1` iterations; and the descent and the scan, when they do not return,
stop on a Go panic of an index or a slice expression and on nothing else. -/
theorem failed_descent_advances (patterns : List (List Byte)) (text : List Byte)
    (after : Nat → Byte) (hne : patterns ≠ []) :
    (∃ t, New patterns = Except.ok t ∧ mapGet t.root.sub 0 ≠ [] ∧
      ∀ c ∈ mapGet t.root.sub 0, c.val ≠ [] → 1 ≤ c.offset) ∧
    (∀ pos n, rootDescentMem patterns text after pos = Except.ok (n, false) → 1 ≤ n) ∧
    scanMem patterns text after ≠ Except.error Err.fatal ∧
    scanMem patterns text after ≠ Except.error Err.outOfFuel ∧
    (∀ pos, BoundsOnly (rootDescentMem patterns text after pos)) ∧
    BoundsOnly (scanMem patterns text after) := by
  obtain ⟨t, hnew, hkey, hoff⟩ := New_root_children patterns hne
  have hadv : ∀ tail n, t.root.matchMem 0 tail after = Except.ok (n, false) → 1 ≤ n :=
    fun tail n h => matchMem_advance t.root 0 tail after n hkey hoff h
  have hscan : BoundsOnly (scanMem patterns text after) := by
    unfold scanMem
    rw [hnew]
    exact matchFromMem_boundsOnly t text after hadv (text.length + 1) 0 (by omega)
      (by simp only [len]; omega)
  have hnoabort : NoAbort (scanMem patterns text after) := boundsOnly_noAbort _ hscan
  refine ⟨⟨t, hnew, hkey, hoff⟩, ?_, fun h => (hnoabort _ h).1 rfl,
    fun h => (hnoabort _ h).2 rfl, ?_, hscan⟩
  · intro pos n h
    unfold rootDescentMem at h
    rw [hnew] at h
    obtain ⟨tail, _, h2⟩ := bind_eq_ok _ _ _ (show (sliceFrom text pos >>= fun tail =>
      t.root.matchMem 0 tail after) = _ from h)
    exact hadv tail n h2
  · intro pos
    unfold rootDescentMem
    rw [hnew]
    exact boundsOnly_bind (sliceFrom text pos) (fun tail => t.root.matchMem 0 tail after)
      (boundsOnly_sliceFrom _ _) fun tail => boundsOnly_matchMem _ _ _ _

set_option maxRecDepth 100000 in
/-- C20 at `New("hello").Match("worldhell")` with zero bytes after the text: the
descent at the cursor 5 compares the five bytes of `hello` with the four bytes
`hell` and the byte after the text, returns not-found with the advance 5, and
the scan returns `("", false)`. -/
theorem failed_descent_advances_witness :
    [str "hello"] ≠ [] ∧
    rootDescentMem [str "hello"] (str "worldhell") (fun _ => 0) 5 = Except.ok (5, false) ∧
    scanMem [str "hello"] (str "worldhell") (fun _ => 0) = Except.ok ([], false) ∧
    ((∃ t, New [str "hello"] = Except.ok t ∧ mapGet t.root.sub 0 ≠ [] ∧
      ∀ c ∈ mapGet t.root.sub 0, c.val ≠ [] → 1 ≤ c.offset) ∧
    (∀ pos n, rootDescentMem [str "hello"] (str "worldhell") (fun _ => 0) pos
      = Except.ok (n, false) → 1 ≤ n) ∧
    scanMem [str "hello"] (str "worldhell") (fun _ => 0) ≠ Except.error Err.fatal ∧
    scanMem [str "hello"] (str "worldhell") (fun _ => 0) ≠ Except.error Err.outOfFuel ∧
    (∀ pos, BoundsOnly (rootDescentMem [str "hello"] (str "worldhell") (fun _ => 0) pos)) ∧
    BoundsOnly (scanMem [str "hello"] (str "worldhell") (fun _ => 0))) :=
  ⟨by decide, by decide, by decide,
    failed_descent_advances [str "hello"] (str "worldhell") (fun _ => 0) (by decide)⟩

end GoTrie
